import Mathlib

/-!
Verification of the rustyapa transaction-record codec layer.

This file shallowly embeds the codec layer of the repository
(`parser/src/codecs/{binary,text,csv}.rs`, `parser/src/domain/tx.rs`,
`parser/src/codecs/base.rs`, the error model in
`parser/src/codecs/errors.rs` and `parser/src/errors.rs`) and proves
properties of the embedded code.

Modelling conventions:
* Rust `u64`/`u32`/`u8` values are `Nat`s; where the source performs an
  `as u32` cast the embedding takes `% 2^32` explicitly.  `i64` is `Int`
  with two's-complement encoding made explicit.
* A binary stream is a `List Nat` of bytes (each `< 256`); reading from a
  stream follows `Read::read_exact` semantics: a request for `k` bytes
  when fewer than `k` remain is an `UnexpectedEof` failure, whether zero
  or some bytes were available.
* A text stream is a `List Char`; `BufRead::lines` is modelled by
  `linesOf` (split on `'\n'`, drop a trailing `'\r'` per line, no trailing
  empty line).
* A Rust `String` is modelled as its list of unicode scalar values
  (`List Char`); its UTF-8 byte encoding is `utf8Encode`, and
  `String::from_utf8` is `utf8Decode` (returning `none` on invalid input).
* Fallible code returns `Except AppError`.  The payload of an
  `io::Error` is not observable in the byte-list stream model, so the
  embedded `AppError.ReadError`/`WriteError` carry no payload.  String
  payloads of domain errors are carried as `List Char`; for number-parse
  failures the offending input text stands in for the `ParseIntError`
  display string.
-/

namespace Rustyapa

/-! ## Big-endian byte encoding (`to_be_bytes` / `from_be_bytes`) -/

/-- Big-endian byte list of width `w` for the value `n` (low `8*w` bits). -/
def toBytesBE : Nat → Nat → List Nat
  | 0, _ => []
  | w + 1, n => toBytesBE w (n / 256) ++ [n % 256]

/-- Big-endian value of a byte list (`u32::from_be_bytes` etc.). -/
def fromBytesBE (l : List Nat) : Nat :=
  l.foldl (fun a b => a * 256 + b) 0

/-- Two's-complement encoding of an `i64` into 8 big-endian bytes. -/
def encI64 (a : Int) : List Nat :=
  toBytesBE 8 (a % (2 : Int) ^ 64).toNat

/-- Decoding of 8 big-endian bytes into an `i64` (two's complement). -/
def decI64 (l : List Nat) : Int :=
  if fromBytesBE l < 2 ^ 63 then (fromBytesBE l : Int)
  else (fromBytesBE l : Int) - 2 ^ 64

/-! ## Domain model (`parser/src/domain/tx.rs`) -/

/-- Transaction operation kind (`TxKind`). -/
inductive TxKind where
  | Deposit
  | Transfer
  | Withdrawal
deriving DecidableEq, Repr

/-- Transaction processing status (`TxStatus`). -/
inductive TxStatus where
  | Success
  | Failure
  | Pending
deriving DecidableEq, Repr

/-- Transaction record (`TxRecord`).  `TxIdType`, `AccountType` and
`TxTimestamp` are newtype wrappers over `u64` in the source and are
modelled directly as `Nat`; the source field names `from`/`to` are Lean
keywords and appear here as `fromId`/`toId`. -/
structure TxRecord where
  id : Nat
  kind : TxKind
  fromId : Nat
  toId : Nat
  amount : Int
  ts : Nat
  status : TxStatus
  description : List Char
deriving DecidableEq, Repr

/-- Field key of a record (`TxFieldKey` in `codecs/base.rs`). -/
inductive TxFieldKey where
  | Id
  | TxKind
  | FromUserId
  | ToUserId
  | Amount
  | Timestamp
  | Status
  | Description
deriving DecidableEq, Repr

/-! ## Error model (`codecs/errors.rs`, `errors.rs`) -/

/-- Domain-level parse errors (`ParserError`). -/
inductive ParserError where
  | MissingField (k : TxFieldKey)
  | UnparsableKey (s : List Char)
  | UnparsableValue (s : List Char)
  | Duplicate (k : TxFieldKey)
  | NoFieldDelimiter
  | ShellBeQuoted (s : List Char)
  | InvalidFileHeader
  | InvalidRecordHeader (s : List Char)
  | IncompleteRecord
deriving DecidableEq, Repr

/-- Location context attached to domain errors (`ParserContext`). -/
inductive ParserContext where
  | LineNumAndLine (lineNum : Nat) (line : List Char)
  | Position (position : Nat)
  | PositionAndField (position : Nat) (fieldKey : TxFieldKey)
deriving DecidableEq, Repr

/-- Application-level error (`AppError`).  The `io::Error` payload of the
transport variants is not observable in the byte-list stream model. -/
inductive AppError where
  | ReadError
  | WriteError
  | ParsingError (context : ParserContext) (source : ParserError)
deriving DecidableEq, Repr

/-! ## UTF-8 (`String::as_bytes` / `String::from_utf8`)

A Rust `String` is a sequence of unicode scalar values stored as UTF-8
bytes.  `utf8Encode` is the byte encoding; `utf8Decode` validates and
decodes, rejecting exactly what `String::from_utf8` rejects (invalid
leading bytes, overlong forms, surrogates, values above `0x10FFFF`,
truncated sequences). -/

/-- UTF-8 encoding of one unicode scalar value, given as a `Nat`. -/
def utf8EncodeNat (n : Nat) : List Nat :=
  if n < 0x80 then [n]
  else if n < 0x800 then [0xC0 + n / 64, 0x80 + n % 64]
  else if n < 0x10000 then
    [0xE0 + n / 4096, 0x80 + n / 64 % 64, 0x80 + n % 64]
  else
    [0xF0 + n / 262144, 0x80 + n / 4096 % 64, 0x80 + n / 64 % 64, 0x80 + n % 64]

/-- UTF-8 encoding of one unicode scalar value. -/
def utf8EncodeChar (c : Char) : List Nat :=
  utf8EncodeNat c.toNat

/-- UTF-8 encoding of a string (`String::as_bytes`). -/
def utf8Encode (s : List Char) : List Nat :=
  (s.map utf8EncodeChar).flatten

/-- Decode the tail of a 2-byte UTF-8 sequence with leading byte `b0`. -/
def utf8Tail2 (b0 : Nat) : List Nat → Option (Char × List Nat)
  | b1 :: rest1 =>
    if 0x80 ≤ b1 ∧ b1 < 0xC0 then
      some (Char.ofNat ((b0 - 0xC0) * 64 + (b1 - 0x80)), rest1)
    else none
  | [] => none

/-- Decode the tail of a 3-byte UTF-8 sequence with leading byte `b0`.
The range of the first continuation byte depends on `b0` (`0xE0` forbids
overlong forms, `0xED` forbids surrogates). -/
def utf8Tail3 (b0 : Nat) : List Nat → Option (Char × List Nat)
  | b1 :: b2 :: rest2 =>
    if ((if b0 = 0xE0 then 0xA0 else 0x80) ≤ b1 ∧
          b1 < (if b0 = 0xED then 0xA0 else 0xC0)) ∧
        0x80 ≤ b2 ∧ b2 < 0xC0 then
      some (Char.ofNat ((b0 - 0xE0) * 4096 + (b1 - 0x80) * 64 + (b2 - 0x80)),
        rest2)
    else none
  | _ => none

/-- Decode the tail of a 4-byte UTF-8 sequence with leading byte `b0`.
The range of the first continuation byte depends on `b0` (`0xF0` forbids
overlong forms, `0xF4` forbids values above `0x10FFFF`). -/
def utf8Tail4 (b0 : Nat) : List Nat → Option (Char × List Nat)
  | b1 :: b2 :: b3 :: rest3 =>
    if ((if b0 = 0xF0 then 0x90 else 0x80) ≤ b1 ∧
          b1 < (if b0 = 0xF4 then 0x90 else 0xC0)) ∧
        (0x80 ≤ b2 ∧ b2 < 0xC0) ∧ 0x80 ≤ b3 ∧ b3 < 0xC0 then
      some (Char.ofNat ((b0 - 0xF0) * 262144 + (b1 - 0x80) * 4096 +
        (b2 - 0x80) * 64 + (b3 - 0x80)), rest3)
    else none
  | _ => none

/-- Decode a single UTF-8 scalar from the front of a byte list, returning
the scalar and the remaining bytes; `none` on invalid or truncated
input. -/
def utf8DecodeChar1 : List Nat → Option (Char × List Nat)
  | [] => none
  | b0 :: rest =>
    if b0 < 0x80 then some (Char.ofNat b0, rest)
    else if b0 < 0xC2 then none
    else if b0 < 0xE0 then utf8Tail2 b0 rest
    else if b0 < 0xF0 then utf8Tail3 b0 rest
    else if b0 < 0xF5 then utf8Tail4 b0 rest
    else none

/-- Fuelled UTF-8 decoding loop. -/
def utf8DecodeLoop : Nat → List Nat → Option (List Char)
  | _, [] => some []
  | 0, _ :: _ => none
  | fuel + 1, b0 :: rest =>
    match utf8DecodeChar1 (b0 :: rest) with
    | none => none
    | some (c, rest1) => (utf8DecodeLoop fuel rest1).map (fun cs => c :: cs)

/-- UTF-8 validation/decoding of a byte list (`String::from_utf8`). -/
def utf8Decode (l : List Nat) : Option (List Char) :=
  utf8DecodeLoop l.length l

/-! ## Decimal formatting (`u64`/`i64`/`u8` `to_string` and `from_str`) -/

/-- Decimal digits of `n`, least significant first; `fuel`-bounded. -/
def natDigitsRev (fuel n : Nat) : List Nat :=
  match fuel with
  | 0 => []
  | f + 1 => if n = 0 then [] else n % 10 :: natDigitsRev f (n / 10)

/-- Decimal representation of a `Nat` (Rust's unsigned `to_string`). -/
def decRepr (n : Nat) : List Char :=
  if n = 0 then ['0']
  else ((natDigitsRev n n).map (fun d => Char.ofNat (48 + d))).reverse

/-- Decimal representation of an `Int` (Rust's `i64::to_string`). -/
def intRepr (a : Int) : List Char :=
  if a < 0 then '-' :: decRepr (-a).toNat else decRepr a.toNat

/-! ## Binary codec (`parser/src/codecs/binary.rs`) -/

/-- The frame magic `b"YPBN"` (`RECORD_MAGIC`). -/
def RECORD_MAGIC : List Nat := [0x59, 0x50, 0x42, 0x4E]

/-- `MINIMUM_RECORD_SIZE = 8 + 1 + 8 + 8 + 8 + 8 + 1 + 4`. -/
def MINIMUM_RECORD_SIZE : Nat := 8 + 1 + 8 + 8 + 8 + 8 + 1 + 4

/-- One uppercase hex digit. -/
def hexDigitChar (d : Nat) : Char :=
  Char.ofNat (if d < 10 then 48 + d else 55 + d)

/-- `BinaryCodec::bytes_to_hex`: `{:02X}` for each byte, concatenated. -/
def bytesToHex (bytes : List Nat) : List Char :=
  (bytes.map (fun b => [hexDigitChar (b / 16), hexDigitChar (b % 16)])).flatten

/-- `BinaryCodec::parse_kind_from_u8`. -/
def parse_kind_from_u8 (v : Nat) : Except ParserError TxKind :=
  if v = 0 then .ok .Deposit
  else if v = 1 then .ok .Transfer
  else if v = 2 then .ok .Withdrawal
  else .error (.UnparsableValue (decRepr v))

/-- `BinaryCodec::kind_to_u8`. -/
def kind_to_u8 : TxKind → Nat
  | .Deposit => 0
  | .Transfer => 1
  | .Withdrawal => 2

/-- `BinaryCodec::parse_status_from_u8`. -/
def parse_status_from_u8 (v : Nat) : Except ParserError TxStatus :=
  if v = 0 then .ok .Success
  else if v = 1 then .ok .Failure
  else if v = 2 then .ok .Pending
  else .error (.UnparsableValue (decRepr v))

/-- `BinaryCodec::status_to_u8`. -/
def status_to_u8 : TxStatus → Nat
  | .Success => 0
  | .Failure => 1
  | .Pending => 2

/-- `Read::read_exact` on a byte-list stream, with the transport error
already wrapped by `add_read_ctx` (any failure, EOF included, becomes
`AppError::ReadError`). -/
def readBytes (k : Nat) (s : List Nat) : Except AppError (List Nat × List Nat) :=
  if k ≤ s.length then .ok (s.take k, s.drop k) else .error .ReadError

/-- Decode one frame body (the `Cursor` reads in `BinaryCodec::parse`),
threading the running byte position `pos` used by error contexts.
Returns the record and the updated position. -/
def binDecodeBody (pos : Nat) (body : List Nat) : Except AppError (TxRecord × Nat) :=
  match readBytes 8 body with
  | .error e => .error e
  | .ok (idB, r1) =>
    match readBytes 1 r1 with
    | .error e => .error e
    | .ok (kB, r2) =>
      match (parse_kind_from_u8 (kB.headD 0)).mapError
          (fun e => AppError.ParsingError
            (.PositionAndField (pos + 8 + 1) .TxKind) e) with
      | .error e => .error e
      | .ok kind =>
        match readBytes 8 r2 with
        | .error e => .error e
        | .ok (fromB, r3) =>
          match readBytes 8 r3 with
          | .error e => .error e
          | .ok (toB, r4) =>
            match readBytes 8 r4 with
            | .error e => .error e
            | .ok (amtB, r5) =>
              match readBytes 8 r5 with
              | .error e => .error e
              | .ok (tsB, r6) =>
                match readBytes 1 r6 with
                | .error e => .error e
                | .ok (stB, r7) =>
                  match (parse_status_from_u8 (stB.headD 0)).mapError
                      (fun e => AppError.ParsingError
                        (.PositionAndField (pos + 8 + 1 + 8 + 8 + 8 + 8 + 1)
                          .Status) e) with
                  | .error e => .error e
                  | .ok status =>
                    match readBytes 4 r7 with
                    | .error e => .error e
                    | .ok (dlB, r8) =>
                      let descLen := fromBytesBE dlB
                      let posFixed := pos + 8 + 1 + 8 + 8 + 8 + 8 + 1 + 4
                      if 0 < descLen then
                        match readBytes descLen r8 with
                        | .error e => .error e
                        | .ok (descB, _) =>
                          match utf8Decode descB with
                          | none =>
                            .error (.ParsingError
                              (.PositionAndField (posFixed + descLen) .Description)
                              (.UnparsableValue
                                "non utf-8 string".toList))
                          | some desc =>
                            .ok (⟨fromBytesBE idB, kind, fromBytesBE fromB,
                              fromBytesBE toB, decI64 amtB, fromBytesBE tsB,
                              status, desc⟩, posFixed + descLen)
                      else
                        .ok (⟨fromBytesBE idB, kind, fromBytesBE fromB,
                          fromBytesBE toB, decI64 amtB, fromBytesBE tsB,
                          status, []⟩, posFixed)

/-- The frame loop of `BinaryCodec::parse`.  `fuel` only bounds the
number of iterations; `binParse` supplies enough for any input.  A
`read_exact` of the 4 magic bytes that hits end of stream — with zero
*or* a partial 1–3 bytes available — yields `ErrorKind::UnexpectedEof`,
which the source matches and turns into a clean `break`. -/
def binParseLoop : Nat → Nat → List Nat → List TxRecord → Except AppError (List TxRecord)
  | _, _, [], acc => .ok acc
  | _, _, [_], acc => .ok acc
  | _, _, [_, _], acc => .ok acc
  | _, _, [_, _, _], acc => .ok acc
  | 0, _, _ :: _ :: _ :: _ :: _, _ => .error .ReadError
  | fuel + 1, pos, b0 :: b1 :: b2 :: b3 :: t, acc =>
    if [b0, b1, b2, b3] ≠ RECORD_MAGIC then
      .error (.ParsingError (.Position (pos + 4))
        (.InvalidRecordHeader (bytesToHex [b0, b1, b2, b3])))
    else
      match readBytes 4 t with
      | .error e => .error e
      | .ok (szB, s2) =>
        let record_size := fromBytesBE szB
        if record_size < MINIMUM_RECORD_SIZE then
          .error (.ParsingError (.Position (pos + 4 + 4)) .IncompleteRecord)
        else
          match readBytes record_size s2 with
          | .error e => .error e
          | .ok (body, s3) =>
            match binDecodeBody (pos + 4 + 4) body with
            | .error e => .error e
            | .ok (rec, pos') => binParseLoop fuel pos' s3 (acc ++ [rec])

/-- `BinaryCodec::parse`. -/
def binParse (s : List Nat) : Except AppError (List TxRecord) :=
  binParseLoop (s.length + 1) 0 s []

/-- The body bytes that `BinaryCodec::write` emits for one record (the
appends are grouped to the right; `++` is associative, so this is the
same byte sequence the source emits field by field). -/
def binEncodeBody (r : TxRecord) : List Nat :=
  toBytesBE 8 r.id ++ ([kind_to_u8 r.kind] ++ (toBytesBE 8 r.fromId ++
    (toBytesBE 8 r.toId ++ (encI64 r.amount ++ (toBytesBE 8 r.ts ++
    ([status_to_u8 r.status] ++
    (toBytesBE 4 ((utf8Encode r.description).length % 2 ^ 32) ++
    utf8Encode r.description)))))))

/-- One frame of `BinaryCodec::write`: magic, body length
`(8+1+8+8+8+8+1+4 + desc_bytes.len()) as u32`, body. -/
def binWriteOne (r : TxRecord) : List Nat :=
  RECORD_MAGIC ++
    (toBytesBE 4 ((8 + 1 + 8 + 8 + 8 + 8 + 1 + 4 +
      (utf8Encode r.description).length) % 2 ^ 32) ++
    binEncodeBody r)

/-- `BinaryCodec::write` over a whole record slice. -/
def binWrite (rs : List TxRecord) : List Nat :=
  (rs.map binWriteOne).flatten

/-! ## Record validity

A record constructed in the Rust program carries its field types'
invariants: `u64`/`i64` ranges, and a `String` description whose UTF-8
byte length fits the `u32` frame fields.  These are the "valid record"
side conditions of the round-trip property. -/

/-- Numeric field ranges guaranteed by the Rust types (`u64`, `i64`). -/
def wfRecord (r : TxRecord) : Prop :=
  r.id < 2 ^ 64 ∧ r.fromId < 2 ^ 64 ∧ r.toId < 2 ^ 64 ∧ r.ts < 2 ^ 64 ∧
    -(2 ^ 63) ≤ r.amount ∧ r.amount < 2 ^ 63

instance (r : TxRecord) : Decidable (wfRecord r) := by
  unfold wfRecord; infer_instance

/-- Validity for the binary format: numeric ranges plus a description
whose frame length field does not overflow `u32`. -/
def binValidRecord (r : TxRecord) : Prop :=
  wfRecord r ∧ 46 + (utf8Encode r.description).length < 2 ^ 32

instance (r : TxRecord) : Decidable (binValidRecord r) := by
  unfold binValidRecord; infer_instance

/-- Example record from the spec's binary scenario (§8). -/
def sampleTx : TxRecord :=
  ⟨1, .Transfer, 11, 22, -500, 1700000, .Pending, "payment".toList⟩

/-! ## Text codec (`parser/src/codecs/text.rs`) -/

/-- `char::is_whitespace` (the Unicode `White_Space` property). -/
def isWhitespaceRust (c : Char) : Bool :=
  (0x9 ≤ c.toNat ∧ c.toNat ≤ 0xD) ∨ c.toNat = 0x20 ∨ c.toNat = 0x85 ∨
    c.toNat = 0xA0 ∨ c.toNat = 0x1680 ∨
    (0x2000 ≤ c.toNat ∧ c.toNat ≤ 0x200A) ∨ c.toNat = 0x2028 ∨
    c.toNat = 0x2029 ∨ c.toNat = 0x202F ∨ c.toNat = 0x205F ∨ c.toNat = 0x3000

/-- Left part of `str::trim`. -/
def trimLeft (s : List Char) : List Char :=
  s.dropWhile isWhitespaceRust

/-- Right part of `str::trim`. -/
def trimRight (s : List Char) : List Char :=
  (s.reverse.dropWhile isWhitespaceRust).reverse

/-- `str::trim`. -/
def trim (s : List Char) : List Char :=
  trimRight (trimLeft s)

/-- Unsigned decimal digit run (shared by `u64`/`i64` `from_str`):
`none` when empty or a non-digit appears, else the value. -/
def parseDigits (s : List Char) : Option Nat :=
  if s = [] then none
  else if s.all (fun c => 48 ≤ c.toNat ∧ c.toNat ≤ 57) then
    some (s.foldl (fun a c => a * 10 + (c.toNat - 48)) 0)
  else none

/-- The optional leading `+` accepted by `from_str_radix`. -/
def stripPlus : List Char → List Char
  | '+' :: t => t
  | t => t

/-- `u64::from_str`: optional leading `+`, digits, range check. -/
def parseU64 (s : List Char) : Option Nat :=
  (parseDigits (stripPlus s)).bind
    (fun n => if n < 2 ^ 64 then some n else none)

/-- `i64::from_str`: optional sign, digits, range check. -/
def parseI64 (s : List Char) : Option Int :=
  match s with
  | '-' :: t => (parseDigits t).bind
      (fun n => if n ≤ 2 ^ 63 then some (-(n : Int)) else none)
  | '+' :: t => (parseDigits t).bind
      (fun n => if n + 1 ≤ 2 ^ 63 then some ((n : Int)) else none)
  | t => (parseDigits t).bind
      (fun n => if n + 1 ≤ 2 ^ 63 then some ((n : Int)) else none)

/-- `u64` field value parse, with the number-parse failure turned into
`UnparsableValue` (via `From<ParseIntError>`). -/
def parse_u64_value (s : List Char) : Except ParserError Nat :=
  match parseU64 s with
  | some n => .ok n
  | none => .error (.UnparsableValue s)

/-- `i64` field value parse (`amount`). -/
def parse_i64_value (s : List Char) : Except ParserError Int :=
  match parseI64 s with
  | some a => .ok a
  | none => .error (.UnparsableValue s)

/-- `impl FromStr for TxKind` (tokens `DEPOSIT`/`TRANSFER`/`WITHDRAWAL`). -/
def txKind_from_str (s : List Char) : Except ParserError TxKind :=
  if s = "DEPOSIT".toList then .ok .Deposit
  else if s = "TRANSFER".toList then .ok .Transfer
  else if s = "WITHDRAWAL".toList then .ok .Withdrawal
  else .error (.UnparsableValue s)

/-- `impl Display for TxKind`. -/
def txKind_to_str : TxKind → List Char
  | .Deposit => "DEPOSIT".toList
  | .Transfer => "TRANSFER".toList
  | .Withdrawal => "WITHDRAWAL".toList

/-- `impl FromStr for TxStatus` (tokens `SUCCESS`/`FAILURE`/`PENDING`). -/
def txStatus_from_str (s : List Char) : Except ParserError TxStatus :=
  if s = "SUCCESS".toList then .ok .Success
  else if s = "FAILURE".toList then .ok .Failure
  else if s = "PENDING".toList then .ok .Pending
  else .error (.UnparsableValue s)

/-- `impl Display for TxStatus`. -/
def txStatus_to_str : TxStatus → List Char
  | .Success => "SUCCESS".toList
  | .Failure => "FAILURE".toList
  | .Pending => "PENDING".toList

/-- `impl FromStr for TxFieldKey`. -/
def txFieldKey_from_str (s : List Char) : Except ParserError TxFieldKey :=
  if s = "TX_ID".toList then .ok .Id
  else if s = "TX_TYPE".toList then .ok .TxKind
  else if s = "FROM_USER_ID".toList then .ok .FromUserId
  else if s = "TO_USER_ID".toList then .ok .ToUserId
  else if s = "AMOUNT".toList then .ok .Amount
  else if s = "TIMESTAMP".toList then .ok .Timestamp
  else if s = "STATUS".toList then .ok .Status
  else if s = "DESCRIPTION".toList then .ok .Description
  else .error (.UnparsableKey s)

/-- `impl Display for TxFieldKey`. -/
def txFieldKey_to_str : TxFieldKey → List Char
  | .Id => "TX_ID".toList
  | .TxKind => "TX_TYPE".toList
  | .FromUserId => "FROM_USER_ID".toList
  | .ToUserId => "TO_USER_ID".toList
  | .Amount => "AMOUNT".toList
  | .Timestamp => "TIMESTAMP".toList
  | .Status => "STATUS".toList
  | .Description => "DESCRIPTION".toList

/-- `codecs/utils.rs` `unquote`: strip exactly one leading and one
trailing double quote; anything else is `ShellBeQuoted`. -/
def unquote (s : List Char) : Except ParserError (List Char) :=
  match s with
  | '"' :: t =>
    match t.getLast? with
    | some c => if c = '"' then .ok t.dropLast else .error (.ShellBeQuoted s)
    | none => .error (.ShellBeQuoted s)
  | _ => .error (.ShellBeQuoted s)

/-- `str::split_once`: split at the first occurrence of `sep`. -/
def splitOnce (sep : Char) : List Char → Option (List Char × List Char)
  | [] => none
  | c :: t =>
    if c = sep then some ([], t)
    else (splitOnce sep t).map (fun p => (c :: p.1, p.2))

/-- The text codec's record accumulator (`RecordBuilder`). -/
structure RecordBuilder where
  is_dirty : Bool
  id : Option Nat
  kind : Option TxKind
  fromId : Option Nat
  toId : Option Nat
  amount : Option Int
  ts : Option Nat
  status : Option TxStatus
  description : Option (List Char)
deriving DecidableEq, Repr

/-- `RecordBuilder::new`. -/
def RecordBuilder.new : RecordBuilder :=
  ⟨false, none, none, none, none, none, none, none, none⟩

/-- `RecordBuilder::is_key_already_present`. -/
def RecordBuilder.is_key_already_present (b : RecordBuilder) : TxFieldKey → Bool
  | .Id => b.id.isSome
  | .TxKind => b.kind.isSome
  | .FromUserId => b.fromId.isSome
  | .ToUserId => b.toId.isSome
  | .Amount => b.amount.isSome
  | .Timestamp => b.ts.isSome
  | .Status => b.status.isSome
  | .Description => b.description.isSome

/-- `RecordBuilder::set_field_value`. -/
def RecordBuilder.set_field_value (b : RecordBuilder) (field_key : TxFieldKey)
    (value : List Char) : Except ParserError RecordBuilder :=
  if b.is_key_already_present field_key then .error (.Duplicate field_key)
  else
    match field_key with
    | .Id => (parse_u64_value value).map
        (fun n => { b with is_dirty := true, id := some n })
    | .TxKind => (txKind_from_str value).map
        (fun k => { b with is_dirty := true, kind := some k })
    | .FromUserId => (parse_u64_value value).map
        (fun n => { b with is_dirty := true, fromId := some n })
    | .ToUserId => (parse_u64_value value).map
        (fun n => { b with is_dirty := true, toId := some n })
    | .Amount => (parse_i64_value value).map
        (fun a => { b with is_dirty := true, amount := some a })
    | .Timestamp => (parse_u64_value value).map
        (fun n => { b with is_dirty := true, ts := some n })
    | .Status => (txStatus_from_str value).map
        (fun st => { b with is_dirty := true, status := some st })
    | .Description => (unquote value).map
        (fun d => { b with is_dirty := true, description := some d })

/-- `RecordBuilder::parse_field_from_line`. -/
def RecordBuilder.parse_field_from_line (b : RecordBuilder) (line : List Char) :
    Except ParserError RecordBuilder :=
  match splitOnce ':' line with
  | none => .error .NoFieldDelimiter
  | some (key, value) =>
    match txFieldKey_from_str (trim key) with
    | .error e => .error e
    | .ok field_key => b.set_field_value field_key (trim value)

/-- `RecordBuilder::finalize`: validate all eight fields, reporting
`MissingField` for the first absent one in the fixed order id, kind,
from, to, amount, timestamp, status, description. -/
def RecordBuilder.finalize (b : RecordBuilder) : Except ParserError TxRecord :=
  match b.id with
  | none => .error (.MissingField .Id)
  | some id =>
    match b.kind with
    | none => .error (.MissingField .TxKind)
    | some kind =>
      match b.fromId with
      | none => .error (.MissingField .FromUserId)
      | some fromId =>
        match b.toId with
        | none => .error (.MissingField .ToUserId)
        | some toId =>
          match b.amount with
          | none => .error (.MissingField .Amount)
          | some amount =>
            match b.ts with
            | none => .error (.MissingField .Timestamp)
            | some ts =>
              match b.status with
              | none => .error (.MissingField .Status)
              | some status =>
                match b.description with
                | none => .error (.MissingField .Description)
                | some description =>
                  .ok ⟨id, kind, fromId, toId, amount, ts, status, description⟩

/-- `String::lines` segmentation: split on `'\n'`. -/
def splitOnChar (sep : Char) : List Char → List (List Char)
  | [] => [[]]
  | c :: t =>
    if c = sep then [] :: splitOnChar sep t
    else
      match splitOnChar sep t with
      | [] => [[c]]
      | s :: ss => (c :: s) :: ss

/-- Strip one trailing `'\r'` (CRLF tolerance of `BufRead::lines`). -/
def stripTrailingCR (l : List Char) : List Char :=
  if l.getLast? = some '\r' then l.dropLast else l

/-- `BufRead::lines` on an in-memory char stream: split on `'\n'`, no
trailing empty line when the input ends with a newline (or is empty),
and a trailing `'\r'` removed from each line. -/
def linesOf (s : List Char) : List (List Char) :=
  ((if (splitOnChar '\n' s).getLast? = some [] then
      (splitOnChar '\n' s).dropLast
    else splitOnChar '\n' s).map stripTrailingCR)

/-- The line loop of `TextCodec::parse`.  Arguments: current line number,
last raw line read (`input_line`), the builder, the records so far, the
remaining lines. -/
def textLoop : Nat → List Char → RecordBuilder → List TxRecord →
    List (List Char) → Except AppError (List TxRecord)
  | lineNum, prev, b, acc, [] =>
    if b.is_dirty then
      match b.finalize with
      | .error e => .error (.ParsingError (.LineNumAndLine lineNum prev) e)
      | .ok r => .ok (acc ++ [r])
    else .ok acc
  | lineNum, _prev, b, acc, raw :: rest =>
    if (trim raw).head? = some '#' then textLoop (lineNum + 1) raw b acc rest
    else if trim raw = [] then
      if b.is_dirty then
        match b.finalize with
        | .error e => .error (.ParsingError (.LineNumAndLine (lineNum + 1) raw) e)
        | .ok r => textLoop (lineNum + 1) raw RecordBuilder.new (acc ++ [r]) rest
      else textLoop (lineNum + 1) raw RecordBuilder.new acc rest
    else
      match b.parse_field_from_line (trim raw) with
      | .error e => .error (.ParsingError (.LineNumAndLine (lineNum + 1) raw) e)
      | .ok b2 => textLoop (lineNum + 1) raw b2 acc rest

/-- `TextCodec::parse`. -/
def textParse (input : List Char) : Except AppError (List TxRecord) :=
  textLoop 0 [] RecordBuilder.new [] (linesOf input)

/-- The fixed field order of the text/CSV formats. -/
def allFieldKeys : List TxFieldKey :=
  [.Id, .TxKind, .FromUserId, .ToUserId, .Amount, .Timestamp, .Status,
    .Description]

/-- The canonical value string the writer emits for one field. -/
def valueFor (r : TxRecord) : TxFieldKey → List Char
  | .Id => decRepr r.id
  | .TxKind => txKind_to_str r.kind
  | .FromUserId => decRepr r.fromId
  | .ToUserId => decRepr r.toId
  | .Amount => intRepr r.amount
  | .Timestamp => decRepr r.ts
  | .Status => txStatus_to_str r.status
  | .Description => '"' :: (r.description ++ ['"'])

/-- One `KEY: value` line of `TextCodec::write_kv_pair` (without the
trailing newline). -/
def lineFor (r : TxRecord) (k : TxFieldKey) : List Char :=
  txFieldKey_to_str k ++ (':' :: ' ' :: valueFor r k)

/-- `TextCodec::write_single_record`: the eight lines in canonical
order, each newline-terminated. -/
def textWriteOne (r : TxRecord) : List Char :=
  (allFieldKeys.map (fun k => lineFor r k ++ ['\n'])).flatten

/-- `TextCodec::write`: each record followed by a blank separator line. -/
def textWrite (rs : List TxRecord) : List Char :=
  (rs.map (fun r => textWriteOne r ++ ['\n'])).flatten

/-- Validity for the text format: numeric ranges plus a description
without a line break (a `'\n'` inside the description would split the
quoted value across lines). -/
def textValidRecord (r : TxRecord) : Prop :=
  wfRecord r ∧ '\n' ∉ r.description

instance (r : TxRecord) : Decidable (textValidRecord r) := by
  unfold textValidRecord; infer_instance

/-- The builder state holding exactly the fields in `ks`, with the
values of record `r`. -/
def partialOf (r : TxRecord) (ks : List TxFieldKey) : RecordBuilder :=
  ⟨decide (ks ≠ []),
   if TxFieldKey.Id ∈ ks then some r.id else none,
   if TxFieldKey.TxKind ∈ ks then some r.kind else none,
   if TxFieldKey.FromUserId ∈ ks then some r.fromId else none,
   if TxFieldKey.ToUserId ∈ ks then some r.toId else none,
   if TxFieldKey.Amount ∈ ks then some r.amount else none,
   if TxFieldKey.Timestamp ∈ ks then some r.ts else none,
   if TxFieldKey.Status ∈ ks then some r.status else none,
   if TxFieldKey.Description ∈ ks then some r.description else none⟩

/-- The first absent field in the fixed order id, kind, from, to,
amount, timestamp, status, description — stated from the spec's words,
to be compared with `RecordBuilder.finalize`. -/
def firstMissingKey (b : RecordBuilder) : Option TxFieldKey :=
  if b.id.isNone then some .Id
  else if b.kind.isNone then some .TxKind
  else if b.fromId.isNone then some .FromUserId
  else if b.toId.isNone then some .ToUserId
  else if b.amount.isNone then some .Amount
  else if b.ts.isNone then some .Timestamp
  else if b.status.isNone then some .Status
  else if b.description.isNone then some .Description
  else none

/-! ## CSV codec (`parser/src/codecs/csv.rs`) -/

/-- `HEADER_SIGNATURE`. -/
def HEADER_SIGNATURE : List Char :=
  "TX_ID,TX_TYPE,FROM_USER_ID,TO_USER_ID,AMOUNT,TIMESTAMP,STATUS,DESCRIPTION".toList

/-- `Vec::join` on `&str` values with a one-character separator. -/
def joinSep (sep : Char) : List (List Char) → List Char
  | [] => []
  | [l] => l
  | l :: l2 :: ls => l ++ sep :: joinSep sep (l2 :: ls)

/-- `CsvCodec::parse_csv_line`: split on commas, trim each token,
require exactly 8 fields, parse positionally. -/
def parse_csv_line (line : List Char) : Except ParserError TxRecord :=
  match (splitOnChar ',' line).map trim with
  | [v0, v1, v2, v3, v4, v5, v6, v7] =>
    match parse_u64_value v0 with
    | .error e => .error e
    | .ok id =>
      match txKind_from_str v1 with
      | .error e => .error e
      | .ok kind =>
        match parse_u64_value v2 with
        | .error e => .error e
        | .ok fromId =>
          match parse_u64_value v3 with
          | .error e => .error e
          | .ok toId =>
            match parse_i64_value v4 with
            | .error e => .error e
            | .ok amount =>
              match parse_u64_value v5 with
              | .error e => .error e
              | .ok ts =>
                match txStatus_from_str v6 with
                | .error e => .error e
                | .ok status =>
                  match unquote v7 with
                  | .error e => .error e
                  | .ok description =>
                    .ok ⟨id, kind, fromId, toId, amount, ts, status,
                      description⟩
  | _ => .error .IncompleteRecord

/-- The data-row loop of `CsvCodec::parse` (`enumerate` makes the header
line 0 and the first data row line 1). -/
def csvLoopRows : Nat → List (List Char) → List TxRecord →
    Except AppError (List TxRecord)
  | _, [], acc => .ok acc
  | lineNum, raw :: rest, acc =>
    match parse_csv_line (trim raw) with
    | .error e => .error (.ParsingError (.LineNumAndLine lineNum raw) e)
    | .ok r => csvLoopRows (lineNum + 1) rest (acc ++ [r])

/-- `CsvCodec::parse` over the line sequence: header check, then rows. -/
def csvParseLines : List (List Char) → Except AppError (List TxRecord)
  | [] => .ok []
  | header :: rest =>
    if header ≠ HEADER_SIGNATURE then
      .error (.ParsingError (.LineNumAndLine 0 header) .InvalidFileHeader)
    else csvLoopRows 1 rest []

/-- `CsvCodec::parse`. -/
def csvParse (input : List Char) : Except AppError (List TxRecord) :=
  csvParseLines (linesOf input)

/-- One data row of `CsvCodec::write_single_record` (without the
newline): the eight values comma-joined, description quoted. -/
def csvRow (r : TxRecord) : List Char :=
  joinSep ',' (allFieldKeys.map (valueFor r))

/-- `CsvCodec::write`: header line, then one row per record. -/
def csvWrite (rs : List TxRecord) : List Char :=
  HEADER_SIGNATURE ++ ['\n'] ++ (rs.map (fun r => csvRow r ++ ['\n'])).flatten

/-- Validity for the CSV format: numeric ranges plus a description with
no line break and no comma (the format has no quoting/escaping, so a
comma inside the description would split the row). -/
def csvValidRecord (r : TxRecord) : Prop :=
  wfRecord r ∧ '\n' ∉ r.description ∧ ',' ∉ r.description

instance (r : TxRecord) : Decidable (csvValidRecord r) := by
  unfold csvValidRecord; infer_instance

/-! ## Theorems -/

theorem toBytesBE_length (w n : Nat) : (toBytesBE w n).length = w := by
  induction w generalizing n with
  | zero => rfl
  | succ w ih => simp [toBytesBE, ih]

theorem fromBytesBE_append_one (l : List Nat) (b : Nat) :
    fromBytesBE (l ++ [b]) = fromBytesBE l * 256 + b := by
  simp [fromBytesBE]

theorem fromBytesBE_toBytesBE (w n : Nat) (h : n < 256 ^ w) :
    fromBytesBE (toBytesBE w n) = n := by
  induction w generalizing n with
  | zero =>
    simp [toBytesBE, fromBytesBE]
    omega
  | succ w ih =>
    rw [toBytesBE, fromBytesBE_append_one, ih]
    · omega
    · rw [pow_succ] at h
      omega

theorem decI64_encI64 (a : Int) (h1 : -(2 ^ 63) ≤ a) (h2 : a < 2 ^ 63) :
    decI64 (encI64 a) = a := by
  unfold decI64 encI64
  rw [fromBytesBE_toBytesBE 8 _ (by norm_num; omega)]
  split <;> omega

theorem utf8EncodeChar_length_pos (c : Char) : 1 ≤ (utf8EncodeChar c).length := by
  unfold utf8EncodeChar utf8EncodeNat
  split
  · simp
  · split
    · simp
    · split <;> simp

theorem char_toNat_valid (c : Char) :
    c.toNat < 0x110000 ∧ (c.toNat < 0xD800 ∨ 0xDFFF < c.toNat) := by
  have h := c.valid
  have he : c.toNat = c.val.toNat := rfl
  rw [he]
  rcases h with h | ⟨h1, h2⟩
  · exact ⟨by omega, Or.inl h⟩
  · exact ⟨h2, Or.inr h1⟩

theorem utf8DecodeChar1_encode (c : Char) (rest : List Nat) :
    utf8DecodeChar1 (utf8EncodeChar c ++ rest) = some (c, rest) := by
  obtain ⟨hv1, hv2⟩ := char_toNat_valid c
  have hofNat : Char.ofNat c.toNat = c := Char.ofNat_toNat c
  unfold utf8EncodeChar utf8EncodeNat
  by_cases h1 : c.toNat < 0x80
  · rw [if_pos h1]
    show utf8DecodeChar1 (c.toNat :: rest) = some (c, rest)
    rw [utf8DecodeChar1, if_pos h1, hofNat]
  · rw [if_neg h1]
    by_cases h2 : c.toNat < 0x800
    · rw [if_pos h2]
      show utf8DecodeChar1 ((0xC0 + c.toNat / 64) :: (0x80 + c.toNat % 64) :: rest) =
        some (c, rest)
      rw [utf8DecodeChar1, if_neg (by omega), if_neg (by omega), if_pos (by omega),
        utf8Tail2, if_pos (by constructor <;> omega)]
      have hval : (0xC0 + c.toNat / 64 - 0xC0) * 64 + (0x80 + c.toNat % 64 - 0x80) =
          c.toNat := by omega
      rw [hval, hofNat]
    · rw [if_neg h2]
      by_cases h3 : c.toNat < 0x10000
      · rw [if_pos h3]
        show utf8DecodeChar1 ((0xE0 + c.toNat / 4096) :: (0x80 + c.toNat / 64 % 64) ::
          (0x80 + c.toNat % 64) :: rest) = some (c, rest)
        rw [utf8DecodeChar1, if_neg (by omega), if_neg (by omega), if_neg (by omega),
          if_pos (by omega), utf8Tail3]
        rw [if_pos ?side]
        case side =>
          refine ⟨⟨?_, ?_⟩, by omega, by omega⟩
          · split
            · omega
            · omega
          · split
            · omega
            · omega
        have hval : (0xE0 + c.toNat / 4096 - 0xE0) * 4096 +
            (0x80 + c.toNat / 64 % 64 - 0x80) * 64 + (0x80 + c.toNat % 64 - 0x80) =
            c.toNat := by omega
        rw [hval, hofNat]
      · rw [if_neg h3]
        show utf8DecodeChar1 ((0xF0 + c.toNat / 262144) :: (0x80 + c.toNat / 4096 % 64) ::
          (0x80 + c.toNat / 64 % 64) :: (0x80 + c.toNat % 64) :: rest) = some (c, rest)
        rw [utf8DecodeChar1, if_neg (by omega), if_neg (by omega), if_neg (by omega),
          if_neg (by omega), if_pos (by omega), utf8Tail4]
        rw [if_pos ?side]
        case side =>
          refine ⟨⟨?_, ?_⟩, ⟨by omega, by omega⟩, by omega, by omega⟩
          · split
            · omega
            · omega
          · split
            · omega
            · omega
        have hval : (0xF0 + c.toNat / 262144 - 0xF0) * 262144 +
            (0x80 + c.toNat / 4096 % 64 - 0x80) * 4096 +
            (0x80 + c.toNat / 64 % 64 - 0x80) * 64 + (0x80 + c.toNat % 64 - 0x80) =
            c.toNat := by omega
        rw [hval, hofNat]

theorem utf8DecodeLoop_encode (s : List Char) :
    ∀ (fuel : Nat), (utf8Encode s).length ≤ fuel →
      utf8DecodeLoop fuel (utf8Encode s) = some s := by
  induction s with
  | nil => intro fuel _; cases fuel <;> rfl
  | cons c cs ih =>
    intro fuel hfuel
    have henc : utf8Encode (c :: cs) = utf8EncodeChar c ++ utf8Encode cs := by
      simp [utf8Encode]
    rw [henc] at hfuel ⊢
    have hlenc := utf8EncodeChar_length_pos c
    have hlen' : (utf8EncodeChar c).length + (utf8Encode cs).length ≤ fuel := by
      rw [List.length_append] at hfuel; exact hfuel
    have hf : ∃ f', fuel = f' + 1 := ⟨fuel - 1, by omega⟩
    obtain ⟨f', rfl⟩ := hf
    have hcons : ∃ b0 r, utf8EncodeChar c ++ utf8Encode cs = b0 :: r := by
      match he : utf8EncodeChar c with
      | [] => rw [he] at hlenc; simp at hlenc
      | b0 :: r0 => exact ⟨b0, r0 ++ utf8Encode cs, by simp⟩
    obtain ⟨b0, r, heq⟩ := hcons
    have hone : utf8DecodeChar1 (b0 :: r) = some (c, utf8Encode cs) := by
      rw [← heq]; exact utf8DecodeChar1_encode c (utf8Encode cs)
    rw [heq, utf8DecodeLoop, hone]
    simp only
    rw [ih f' (by omega)]
    rfl

theorem utf8Decode_encode (s : List Char) : utf8Decode (utf8Encode s) = some s :=
  utf8DecodeLoop_encode s (utf8Encode s).length le_rfl

theorem utf8Encode_eq_nil_iff (s : List Char) : utf8Encode s = [] ↔ s = [] := by
  constructor
  · intro h
    cases s with
    | nil => rfl
    | cons c cs =>
      exfalso
      have h1 := utf8EncodeChar_length_pos c
      have h2 : utf8Encode (c :: cs) = utf8EncodeChar c ++ utf8Encode cs := by
        simp [utf8Encode]
      rw [h2] at h
      rcases List.append_eq_nil.mp h with ⟨ha, -⟩
      rw [ha] at h1
      simp at h1
  · intro h; subst h; rfl

/-! ### Binary codec lemmas -/

theorem readBytes_exact {l : List Nat} {k : Nat} (h : l.length = k) (t : List Nat) :
    readBytes k (l ++ t) = .ok (l, t) := by
  unfold readBytes
  rw [if_pos (by simp [← h]), List.take_left' h, List.drop_left' h]

theorem readBytes_toBytesBE (w n : Nat) (t : List Nat) :
    readBytes w (toBytesBE w n ++ t) = .ok (toBytesBE w n, t) :=
  readBytes_exact (toBytesBE_length w n) t

theorem readBytes_one (x : Nat) (t : List Nat) :
    readBytes 1 (x :: t) = .ok ([x], t) :=
  readBytes_exact (l := [x]) rfl t

theorem readBytes_encI64 (a : Int) (t : List Nat) :
    readBytes 8 (encI64 a ++ t) = .ok (encI64 a, t) :=
  readBytes_exact (toBytesBE_length 8 _) t

theorem fromBytes_toBytes8 {n : Nat} (h : n < 2 ^ 64) :
    fromBytesBE (toBytesBE 8 n) = n :=
  fromBytesBE_toBytesBE 8 n (by norm_num; omega)

theorem fromBytes_toBytes4 {n : Nat} (h : n < 2 ^ 32) :
    fromBytesBE (toBytesBE 4 n) = n :=
  fromBytesBE_toBytesBE 4 n (by norm_num; omega)

theorem parse_kind_roundtrip (k : TxKind) :
    parse_kind_from_u8 (kind_to_u8 k) = .ok k := by
  cases k <;> rfl

theorem parse_status_roundtrip (st : TxStatus) :
    parse_status_from_u8 (status_to_u8 st) = .ok st := by
  cases st <;> rfl

theorem binEncodeBody_length (r : TxRecord) :
    (binEncodeBody r).length = 46 + (utf8Encode r.description).length := by
  simp [binEncodeBody, toBytesBE_length, encI64]
  omega

theorem binDecodeBody_enc (r : TxRecord) (hr : binValidRecord r)
    (junk : List Nat) (pos : Nat) :
    binDecodeBody pos (binEncodeBody r ++ junk) =
      .ok (r, pos + 46 + (utf8Encode r.description).length) := by
  obtain ⟨rid, rkind, rfrom, rto, ramt, rts, rstatus, rdesc⟩ := r
  obtain ⟨⟨hid, hfrom, hto, hts, hamt1, hamt2⟩, hdesc⟩ := hr
  simp only at hid hfrom hto hts hamt1 hamt2 hdesc ⊢
  have hdl : (utf8Encode rdesc).length < 2 ^ 32 := by omega
  have hpow : (2 : Nat) ^ 32 = 4294967296 := by norm_num
  have hmod : (utf8Encode rdesc).length % 4294967296 = (utf8Encode rdesc).length := by
    apply Nat.mod_eq_of_lt
    omega
  have hdlB : fromBytesBE (toBytesBE 4 ((utf8Encode rdesc).length % 4294967296)) =
      (utf8Encode rdesc).length := by
    rw [hmod]; exact fromBytes_toBytes4 hdl
  have hdescRead : readBytes (utf8Encode rdesc).length
      (utf8Encode rdesc ++ junk) = .ok (utf8Encode rdesc, junk) :=
    readBytes_exact rfl junk
  by_cases hd0 : 0 < (utf8Encode rdesc).length
  · simp only [binDecodeBody, binEncodeBody, List.append_assoc, List.cons_append,
      List.nil_append, readBytes_toBytesBE, readBytes_one, readBytes_encI64,
      List.headD_cons, List.head?_cons, Option.getD_some, parse_kind_roundtrip, parse_status_roundtrip, Except.mapError,
      hpow, hdlB, if_pos hd0, hdescRead, utf8Decode_encode,
      fromBytes_toBytes8 hid, fromBytes_toBytes8 hfrom, fromBytes_toBytes8 hto,
      fromBytes_toBytes8 hts, decI64_encI64 ramt hamt1 hamt2]
  · have hnil : rdesc = [] := by
      have h0 : utf8Encode rdesc = [] :=
        List.length_eq_zero.mp (Nat.eq_zero_of_not_pos hd0)
      exact (utf8Encode_eq_nil_iff _).mp h0
    subst hnil
    simp only [binDecodeBody, binEncodeBody, List.append_assoc, List.cons_append,
      List.nil_append, readBytes_toBytesBE, readBytes_one, readBytes_encI64,
      List.headD_cons, List.head?_cons, Option.getD_some, parse_kind_roundtrip, parse_status_roundtrip, Except.mapError,
      hpow, hdlB, if_neg hd0,
      fromBytes_toBytes8 hid, fromBytes_toBytes8 hfrom, fromBytes_toBytes8 hto,
      fromBytes_toBytes8 hts, decI64_encI64 ramt hamt1 hamt2]
    rfl

theorem binParseLoop_frame (r : TxRecord) (hr : binValidRecord r)
    (junk rest : List Nat) (fuel pos : Nat) (acc : List TxRecord)
    (hsz : 46 + (utf8Encode r.description).length + junk.length < 2 ^ 32) :
    binParseLoop (fuel + 1) pos
      (RECORD_MAGIC ++
        (toBytesBE 4 (46 + (utf8Encode r.description).length + junk.length) ++
          ((binEncodeBody r ++ junk) ++ rest))) acc =
      binParseLoop fuel
        (pos + 4 + 4 + 46 + (utf8Encode r.description).length) rest (acc ++ [r]) := by
  have hszB : fromBytesBE
      (toBytesBE 4 (46 + (utf8Encode r.description).length + junk.length)) =
      46 + (utf8Encode r.description).length + junk.length :=
    fromBytes_toBytes4 hsz
  have hbody : (binEncodeBody r ++ junk).length =
      46 + (utf8Encode r.description).length + junk.length := by
    rw [List.length_append, binEncodeBody_length]
  have hbodyRead : readBytes
      (46 + (utf8Encode r.description).length + junk.length)
      ((binEncodeBody r ++ junk) ++ rest) = .ok (binEncodeBody r ++ junk, rest) :=
    readBytes_exact hbody rest
  have hdec : binDecodeBody (pos + 4 + 4) (binEncodeBody r ++ junk) =
      .ok (r, pos + 4 + 4 + 46 + (utf8Encode r.description).length) :=
    binDecodeBody_enc r hr junk (pos + 4 + 4)
  simp only [RECORD_MAGIC, List.cons_append, List.nil_append, List.append_eq,
    binParseLoop, ne_eq, not_true_eq_false, if_false, readBytes_toBytesBE, hszB,
    MINIMUM_RECORD_SIZE, hbodyRead, hdec]
  rw [if_neg (by omega)]

theorem binParseLoop_writeOne (r : TxRecord) (hr : binValidRecord r)
    (rest : List Nat) (fuel pos : Nat) (acc : List TxRecord) :
    binParseLoop (fuel + 1) pos (binWriteOne r ++ rest) acc =
      binParseLoop fuel
        (pos + 4 + 4 + 46 + (utf8Encode r.description).length) rest (acc ++ [r]) := by
  have hlt : 46 + (utf8Encode r.description).length + ([] : List Nat).length <
      2 ^ 32 := by
    have := hr.2
    simp
    omega
  have h := binParseLoop_frame r hr [] rest fuel pos acc hlt
  rw [List.append_nil] at h
  rw [← h]
  have hmod : (8 + 1 + 8 + 8 + 8 + 8 + 1 + 4 +
      (utf8Encode r.description).length) % 2 ^ 32 =
      46 + (utf8Encode r.description).length + ([] : List Nat).length := by
    have := hr.2
    simp
    omega
  simp only [binWriteOne, hmod, List.append_assoc, List.length_nil, Nat.add_zero]

theorem binWriteOne_length (r : TxRecord) :
    (binWriteOne r).length = 54 + (utf8Encode r.description).length := by
  simp [binWriteOne, RECORD_MAGIC, toBytesBE_length, binEncodeBody_length]
  omega

theorem binWrite_length_ge (R : List TxRecord) : R.length ≤ (binWrite R).length := by
  induction R with
  | nil => simp [binWrite]
  | cons r R ih =>
    have h1 : binWrite (r :: R) = binWriteOne r ++ binWrite R := by
      simp [binWrite]
    rw [h1, List.length_append, binWriteOne_length]
    simp at ih ⊢
    omega

theorem binParseLoop_write (R : List TxRecord) (hR : ∀ r ∈ R, binValidRecord r)
    (extra : List Nat) (hx : extra.length < 4) :
    ∀ fuel pos acc, R.length < fuel →
      binParseLoop fuel pos (binWrite R ++ extra) acc = .ok (acc ++ R) := by
  induction R with
  | nil =>
    intro fuel pos acc _
    have hw : binWrite [] = [] := rfl
    rw [hw, List.nil_append, List.append_nil]
    rcases extra with - | ⟨a, - | ⟨b, - | ⟨c, - | ⟨d, t⟩⟩⟩⟩
    · cases fuel <;> rfl
    · cases fuel <;> rfl
    · cases fuel <;> rfl
    · cases fuel <;> rfl
    · exfalso
      simp only [List.length_cons] at hx
      omega
  | cons r R ih =>
    intro fuel pos acc hfuel
    have hf : ∃ f, fuel = f + 1 := ⟨fuel - 1, by simp at hfuel; omega⟩
    obtain ⟨f, rfl⟩ := hf
    have hw : binWrite (r :: R) ++ extra = binWriteOne r ++ (binWrite R ++ extra) := by
      simp [binWrite]
    rw [hw, binParseLoop_writeOne r (hR r (by simp))]
    have hR2 : ∀ x ∈ R, binValidRecord x := fun x hm => hR x (by simp [hm])
    have hflt : R.length < f := by
      simp only [List.length_cons] at hfuel
      omega
    rw [ih hR2 f _ _ hflt]
    simp

theorem binParse_write_extra (R : List TxRecord) (hR : ∀ r ∈ R, binValidRecord r)
    (extra : List Nat) (hx : extra.length < 4) :
    binParse (binWrite R ++ extra) = .ok R := by
  unfold binParse
  have h1 := binWrite_length_ge R
  have h2 : R.length < (binWrite R ++ extra).length + 1 := by
    rw [List.length_append]; omega
  exact binParseLoop_write R hR extra hx _ 0 [] h2

theorem binParse_roundtrip (R : List TxRecord) (hR : ∀ r ∈ R, binValidRecord r) :
    binParse (binWrite R) = .ok R := by
  have h := binParse_write_extra R hR [] (by simp)
  rwa [List.append_nil] at h

theorem parse_kind_err {v : Nat} {e : ParserError}
    (h : parse_kind_from_u8 v = .error e) : e = .UnparsableValue (decRepr v) := by
  unfold parse_kind_from_u8 at h
  split_ifs at h
  all_goals simp_all

theorem parse_status_err {v : Nat} {e : ParserError}
    (h : parse_status_from_u8 v = .error e) : e = .UnparsableValue (decRepr v) := by
  unfold parse_status_from_u8 at h
  split_ifs at h
  all_goals simp_all

theorem mapError_error {α ε ε' : Type} {f : ε → ε'} {x : Except ε α} {e' : ε'}
    (h : x.mapError f = .error e') : ∃ e0, x = .error e0 ∧ e' = f e0 := by
  cases x with
  | error e0 =>
    refine ⟨e0, rfl, ?_⟩
    simp [Except.mapError] at h
    exact h.symm
  | ok v => simp [Except.mapError] at h

/-- `binDecodeBody` can only fail with a transport `ReadError` or a
domain `UnparsableValue`; in particular it never raises
`IncompleteRecord`. -/
theorem binDecodeBody_err (pos : Nat) (body : List Nat) (e : AppError)
    (h : binDecodeBody pos body = .error e) :
    e = .ReadError ∨ ∃ ctx s, e = .ParsingError ctx (.UnparsableValue s) := by
  have hrb : ∀ (k : Nat) (s : List Nat) (e' : AppError),
      readBytes k s = .error e' → e' = AppError.ReadError := by
    intro k s e' h'
    unfold readBytes at h'
    split at h' <;> simp_all
  unfold binDecodeBody at h
  split at h
  · exact Or.inl (by
      rename_i e1 heq
      cases h
      exact hrb _ _ _ heq)
  · split at h
    · exact Or.inl (by
        rename_i e1 heq
        cases h
        exact hrb _ _ _ heq)
    · split at h
      · rename_i e1 heq
        cases h
        obtain ⟨e0, he0, hfe⟩ := mapError_error heq
        rw [parse_kind_err he0] at hfe
        exact Or.inr ⟨_, _, hfe⟩
      · split at h
        · exact Or.inl (by
            rename_i e1 heq
            cases h
            exact hrb _ _ _ heq)
        · split at h
          · exact Or.inl (by
              rename_i e1 heq
              cases h
              exact hrb _ _ _ heq)
          · split at h
            · exact Or.inl (by
                rename_i e1 heq
                cases h
                exact hrb _ _ _ heq)
            · split at h
              · exact Or.inl (by
                  rename_i e1 heq
                  cases h
                  exact hrb _ _ _ heq)
              · split at h
                · exact Or.inl (by
                    rename_i e1 heq
                    cases h
                    exact hrb _ _ _ heq)
                · split at h
                  · rename_i e1 heq
                    cases h
                    obtain ⟨e0, he0, hfe⟩ := mapError_error heq
                    rw [parse_status_err he0] at hfe
                    exact Or.inr ⟨_, _, hfe⟩
                  · split at h
                    · exact Or.inl (by
                        rename_i e1 heq
                        cases h
                        exact hrb _ _ _ heq)
                    · simp only [] at h
                      split at h
                      · split at h
                        · exact Or.inl (by
                            rename_i e1 heq
                            cases h
                            exact hrb _ _ _ heq)
                        · split at h
                          · cases h
                            exact Or.inr ⟨_, _, rfl⟩
                          · cases h
                      · cases h

theorem readBytes_short {k : Nat} {l : List Nat} (h : l.length < k) :
    readBytes k l = .error .ReadError := by
  unfold readBytes
  rw [if_neg (by omega)]

theorem readBytes_all {l : List Nat} {k : Nat} (h : l.length = k) :
    readBytes k l = .ok (l, []) := by
  have h2 := readBytes_exact h []
  rwa [List.append_nil] at h2

theorem binParseLoop_write_magic_trunc (R : List TxRecord)
    (hR : ∀ r ∈ R, binValidRecord r) (t : List Nat) (ht : t.length < 4) :
    ∀ fuel pos acc, R.length < fuel →
      binParseLoop fuel pos (binWrite R ++ (RECORD_MAGIC ++ t)) acc =
        .error .ReadError := by
  induction R with
  | nil =>
    intro fuel pos acc hfuel
    have hf : ∃ f, fuel = f + 1 := ⟨fuel - 1, by omega⟩
    obtain ⟨f, rfl⟩ := hf
    have hw : binWrite [] = [] := rfl
    have hrt : readBytes 4 t = .error .ReadError := readBytes_short ht
    rw [hw, List.nil_append]
    simp only [RECORD_MAGIC, List.cons_append, List.nil_append, List.append_eq,
      binParseLoop, ne_eq, not_true_eq_false, if_false, hrt]
  | cons r R ih =>
    intro fuel pos acc hfuel
    have hf : ∃ f, fuel = f + 1 := ⟨fuel - 1, by simp at hfuel; omega⟩
    obtain ⟨f, rfl⟩ := hf
    have hw : binWrite (r :: R) ++ (RECORD_MAGIC ++ t) =
        binWriteOne r ++ (binWrite R ++ (RECORD_MAGIC ++ t)) := by
      simp [binWrite]
    rw [hw, binParseLoop_writeOne r (hR r (by simp))]
    have hR2 : ∀ x ∈ R, binValidRecord x := fun x hm => hR x (by simp [hm])
    have hflt : R.length < f := by
      simp only [List.length_cons] at hfuel
      omega
    exact ih hR2 f _ _ hflt

theorem binParse_small_size (sz : Nat) (h46 : sz < 46) (hsz : sz < 2 ^ 32)
    (rest : List Nat) :
    binParse (RECORD_MAGIC ++ (toBytesBE 4 sz ++ rest)) =
      .error (.ParsingError (.Position 8) .IncompleteRecord) := by
  unfold binParse
  simp only [RECORD_MAGIC, List.cons_append, List.nil_append, List.append_eq,
    binParseLoop, ne_eq, not_true_eq_false, if_false, readBytes_toBytesBE,
    fromBytes_toBytes4 hsz, MINIMUM_RECORD_SIZE]
  rw [if_pos (by omega)]

theorem binParse_body_no_incomplete (sz : Nat) (h46 : 46 ≤ sz) (hsz : sz < 2 ^ 32)
    (body : List Nat) (hb : body.length = sz) (ctx : ParserContext) :
    binParse (RECORD_MAGIC ++ (toBytesBE 4 sz ++ body)) ≠
      .error (.ParsingError ctx .IncompleteRecord) := by
  intro hcontra
  unfold binParse at hcontra
  simp only [RECORD_MAGIC, List.cons_append, List.nil_append, List.append_eq,
    binParseLoop, ne_eq, not_true_eq_false, if_false, readBytes_toBytesBE,
    fromBytes_toBytes4 hsz, MINIMUM_RECORD_SIZE, readBytes_all hb] at hcontra
  rw [if_neg (by omega)] at hcontra
  cases hdec : binDecodeBody (0 + 4 + 4) body with
  | error e =>
    rw [hdec] at hcontra
    rcases binDecodeBody_err _ _ _ hdec with he | ⟨ctx2, s2, he⟩ <;> simp_all
  | ok p =>
    obtain ⟨rec, pos2⟩ := p
    rw [hdec] at hcontra
    simp only [binParseLoop] at hcontra
    exact absurd hcontra (by simp)

/-- C2 (corrected): in binary parse, `read_exact` of the 4 magic bytes
reports `UnexpectedEof` when the stream ends with zero *or* 1–3 bytes
available, and the source breaks cleanly on `UnexpectedEof` in both
cases; so parse returns the records accumulated so far whenever the
stream ends with fewer than 4 bytes at a frame boundary.  A stream that
ends after the full 4 magic bytes (truncated in the length field)
surfaces as a transport `ReadError`. -/
theorem claim_C2 (R : List TxRecord) (hR : ∀ r ∈ R, binValidRecord r) :
    (∀ extra : List Nat, extra.length < 4 →
      binParse (binWrite R ++ extra) = .ok R) ∧
    (∀ t : List Nat, t.length < 4 →
      binParse (binWrite R ++ (RECORD_MAGIC ++ t)) = .error .ReadError) := by
  constructor
  · intro extra hx
    exact binParse_write_extra R hR extra hx
  · intro t ht
    unfold binParse
    apply binParseLoop_write_magic_trunc R hR t ht
    have h1 := binWrite_length_ge R
    rw [List.length_append]
    omega

/-- C2 counterexample: a stream holding a single byte (a 1-byte partial
read of the magic) parses cleanly to the empty record list — it does not
return a transport `ReadError` as the claim states. -/
theorem claim_C2_counterexample : binParse [0x59] = .ok [] := rfl

/-- C3 (corrected): the minimum fixed-field size is `8+1+8+8+8+8+1+4 =
46` bytes, not 29.  A declared body length below 46 is rejected with
`IncompleteRecord` right after the length field is read (for every
continuation of the stream, so before any body byte is read); a length
of 46 or more is never rejected with `IncompleteRecord`. -/
theorem claim_C3 (sz : Nat) (hsz : sz < 2 ^ 32) :
    (sz < 46 → ∀ rest, binParse (RECORD_MAGIC ++ (toBytesBE 4 sz ++ rest)) =
      .error (.ParsingError (.Position 8) .IncompleteRecord)) ∧
    (46 ≤ sz → ∀ body, body.length = sz → ∀ ctx,
      binParse (RECORD_MAGIC ++ (toBytesBE 4 sz ++ body)) ≠
        .error (.ParsingError ctx .IncompleteRecord)) :=
  ⟨fun h46 rest => binParse_small_size sz h46 hsz rest,
   fun h46 body hb ctx => binParse_body_no_incomplete sz h46 hsz body hb ctx⟩

/-- C3 counterexample: a frame with declared body length 29 (which the
claim says "is not rejected by this pre-body check") *is* rejected with
`IncompleteRecord`, because the actual minimum is 46. -/
theorem claim_C3_counterexample :
    binParse (RECORD_MAGIC ++ (toBytesBE 4 29 ++ List.replicate 29 0)) =
      .error (.ParsingError (.Position 8) .IncompleteRecord) :=
  binParse_small_size 29 (by omega) (by norm_num) _

/-- C4 (corrected): binary write emits a body-length field equal to
`46 + |UTF-8(description)|` (the fixed fields sum to 46, not the 29 the
claim states), with the description length recomputed from the string. -/
theorem claim_C4 (r : TxRecord) (hr : binValidRecord r) :
    ((binWrite [r]).drop 4).take 4 =
      toBytesBE 4 (46 + (utf8Encode r.description).length) := by
  have h1 : binWrite [r] = binWriteOne r := by simp [binWrite]
  rw [h1, binWriteOne, List.drop_left' (show RECORD_MAGIC.length = 4 from rfl),
    List.take_left' (toBytesBE_length 4 _)]
  congr 1
  have h2 := hr.2
  omega

/-- C4 counterexample: for the spec's own sample record (description
"payment", 7 bytes) the emitted body-length field is `46 + 7 = 53`, not
the `29 + 7` the claim predicts. -/
theorem claim_C4_counterexample :
    ((binWrite [sampleTx]).drop 4).take 4 ≠
      toBytesBE 4 (29 + (utf8Encode sampleTx.description).length) := by decide

/-- C10 (confirmed): a frame may declare a body length exceeding
`46 + desc_len`; the surplus body bytes are consumed with the body and
silently discarded, the record parses successfully (given valid field
values), and parsing resumes at the next frame boundary. -/
theorem claim_C10 (r : TxRecord) (junk : List Nat) (R2 : List TxRecord)
    (hr : binValidRecord r) (hR2 : ∀ x ∈ R2, binValidRecord x)
    (hsz : 46 + (utf8Encode r.description).length + junk.length < 2 ^ 32) :
    binParse (RECORD_MAGIC ++
      (toBytesBE 4 (46 + (utf8Encode r.description).length + junk.length) ++
        ((binEncodeBody r ++ junk) ++ binWrite R2))) = .ok (r :: R2) := by
  unfold binParse
  rw [binParseLoop_frame r hr junk (binWrite R2) _ 0 [] hsz]
  have hge := binWrite_length_ge R2
  have hlen : (RECORD_MAGIC ++
      (toBytesBE 4 (46 + (utf8Encode r.description).length + junk.length) ++
        ((binEncodeBody r ++ junk) ++ binWrite R2))).length =
      4 + (4 + (((binEncodeBody r).length + junk.length) +
        (binWrite R2).length)) := by
    simp [RECORD_MAGIC, toBytesBE_length]
    omega
  have hlt : R2.length < (RECORD_MAGIC ++
      (toBytesBE 4 (46 + (utf8Encode r.description).length + junk.length) ++
        ((binEncodeBody r ++ junk) ++ binWrite R2))).length := by
    rw [hlen]
    omega
  have hwl := binParseLoop_write R2 hR2 [] (by simp) _
    (0 + 4 + 4 + 46 + (utf8Encode r.description).length) ([] ++ [r]) hlt
  rw [List.append_nil] at hwl
  rw [hwl]
  simp

/-! ### Decimal and value round-trip lemmas -/

theorem char_toNat_ofNat_small {n : Nat} (h : n < 55296) :
    (Char.ofNat n).toNat = n := by
  unfold Char.ofNat
  rw [dif_pos (Or.inl (by exact_mod_cast h))]
  rfl

theorem natDigitsRev_lt10 (fuel : Nat) :
    ∀ n, ∀ d ∈ natDigitsRev fuel n, d < 10 := by
  induction fuel with
  | zero => intro n d hd; simp [natDigitsRev] at hd
  | succ f ih =>
    intro n d hd
    unfold natDigitsRev at hd
    split at hd
    · simp at hd
    · rcases List.mem_cons.mp hd with h | h
      · subst h; omega
      · exact ih _ _ h

theorem natDigitsRev_ne_nil {fuel n : Nat} (hf : fuel ≠ 0) (hn : n ≠ 0) :
    natDigitsRev fuel n ≠ [] := by
  obtain ⟨f, rfl⟩ : ∃ f, fuel = f + 1 := ⟨fuel - 1, by omega⟩
  unfold natDigitsRev
  rw [if_neg hn]
  simp

theorem foldl_natDigitsRev (fuel : Nat) :
    ∀ n acc, n ≤ fuel →
      ((natDigitsRev fuel n).reverse).foldl (fun a d => a * 10 + d) acc =
        acc * 10 ^ (natDigitsRev fuel n).length + n := by
  induction fuel with
  | zero =>
    intro n acc hn
    have h0 : n = 0 := by omega
    subst h0
    simp [natDigitsRev]
  | succ f ih =>
    intro n acc hn
    by_cases h0 : n = 0
    · subst h0; simp [natDigitsRev]
    · unfold natDigitsRev
      rw [if_neg h0]
      rw [List.reverse_cons, List.foldl_append]
      have hrec := ih (n / 10) acc (by omega)
      rw [hrec]
      simp only [List.foldl_cons, List.foldl_nil, List.length_cons]
      have hdm : n / 10 * 10 + n % 10 = n := by omega
      calc (acc * 10 ^ (natDigitsRev f (n / 10)).length + n / 10) * 10 + n % 10
          = acc * (10 ^ (natDigitsRev f (n / 10)).length * 10) +
            (n / 10 * 10 + n % 10) := by ring
        _ = acc * 10 ^ ((natDigitsRev f (n / 10)).length + 1) + n := by
            rw [hdm, ← pow_succ]

theorem decRepr_digits (n : Nat) :
    ∀ c ∈ decRepr n, 48 ≤ c.toNat ∧ c.toNat ≤ 57 := by
  intro c hc
  unfold decRepr at hc
  split at hc
  · simp at hc
    subst hc
    decide
  · rw [List.mem_reverse, List.mem_map] at hc
    obtain ⟨d, hd, rfl⟩ := hc
    have hd10 := natDigitsRev_lt10 n n d hd
    rw [char_toNat_ofNat_small (by omega)]
    omega

theorem decRepr_ne_nil (n : Nat) : decRepr n ≠ [] := by
  unfold decRepr
  split
  · simp
  · simp only [ne_eq, List.reverse_eq_nil_iff, List.map_eq_nil_iff]
    exact natDigitsRev_ne_nil (by omega) (by omega)

theorem head?_mem {l : List Char} {a : Char} (h : l.head? = some a) : a ∈ l := by
  cases l <;> simp_all

theorem parseDigits_decRepr (n : Nat) : parseDigits (decRepr n) = some n := by
  by_cases h0 : n = 0
  · subst h0; decide
  · unfold parseDigits
    rw [if_neg (decRepr_ne_nil n), if_pos]
    · unfold decRepr
      rw [if_neg h0]
      congr 1
      rw [← List.map_reverse]
      rw [List.foldl_map]
      have heq2 : List.foldl
            (fun a d => a * 10 + (((fun d => Char.ofNat (48 + d)) d).toNat - 48)) 0
            (natDigitsRev n n).reverse =
          List.foldl (fun a d => a * 10 + d) 0 (natDigitsRev n n).reverse := by
        apply List.foldl_ext
        intro a d hd
        rw [List.mem_reverse] at hd
        have hd10 := natDigitsRev_lt10 n n d hd
        rw [char_toNat_ofNat_small (by omega)]
        omega
      rw [heq2, foldl_natDigitsRev n n 0 le_rfl]
      simp
    · rw [List.all_eq_true]
      intro c hc
      have := decRepr_digits n c hc
      simp
      omega

theorem stripPlus_of_digit {s : List Char}
    (h : ∀ c, s.head? = some c → 48 ≤ c.toNat ∧ c.toNat ≤ 57) :
    stripPlus s = s := by
  match s with
  | [] => rfl
  | c :: t =>
    have hc := h c rfl
    unfold stripPlus
    split
    · rename_i heq
      obtain ⟨h1, h2⟩ := List.cons_eq_cons.mp heq
      rw [h1] at hc
      simp at hc
    · rfl

theorem parseU64_decRepr {n : Nat} (h : n < 2 ^ 64) :
    parseU64 (decRepr n) = some n := by
  unfold parseU64
  rw [stripPlus_of_digit (fun c hc => decRepr_digits n c (head?_mem hc)),
    parseDigits_decRepr]
  show (if n < 2 ^ 64 then some n else none) = some n
  rw [if_pos h]

theorem parseI64_of_digit_head {s : List Char}
    (h : ∀ c, s.head? = some c → 48 ≤ c.toNat ∧ c.toNat ≤ 57) :
    parseI64 s = (parseDigits s).bind
      (fun n => if n + 1 ≤ 2 ^ 63 then some ((n : Int)) else none) := by
  match s with
  | [] => rfl
  | c :: t =>
    have hc := h c rfl
    unfold parseI64
    split
    · rename_i heq
      obtain ⟨h1, h2⟩ := List.cons_eq_cons.mp heq
      rw [h1] at hc
      simp at hc
    · rename_i heq
      obtain ⟨h1, h2⟩ := List.cons_eq_cons.mp heq
      rw [h1] at hc
      simp at hc
    · rfl

theorem parseI64_intRepr {a : Int} (h1 : -(2 ^ 63) ≤ a) (h2 : a < 2 ^ 63) :
    parseI64 (intRepr a) = some a := by
  unfold intRepr
  split
  · rename_i hneg
    show (parseDigits (decRepr (-a).toNat)).bind
        (fun n => if n ≤ 2 ^ 63 then some (-(n : Int)) else none) = some a
    rw [parseDigits_decRepr]
    show (if (-a).toNat ≤ 2 ^ 63 then some (-((-a).toNat : Int)) else none) = some a
    rw [if_pos (by omega)]
    congr 1
    omega
  · rename_i hpos
    rw [parseI64_of_digit_head (fun c hc => decRepr_digits _ c (head?_mem hc)),
      parseDigits_decRepr]
    show (if a.toNat + 1 ≤ 2 ^ 63 then some ((a.toNat : Int)) else none) = some a
    rw [if_pos (by omega)]
    congr 1
    omega

theorem unquote_quote (d : List Char) :
    unquote ('"' :: (d ++ ['"'])) = .ok d := by
  simp [unquote, List.getLast?_concat, List.dropLast_concat]

theorem not_ws_of_ascii {c : Char} (h1 : 32 < c.toNat) (h2 : c.toNat < 133) :
    isWhitespaceRust c = false := by
  simp [isWhitespaceRust]
  omega

theorem trimLeft_eq_self {s : List Char}
    (h : ∀ c, s.head? = some c → isWhitespaceRust c = false) :
    trimLeft s = s := by
  cases s with
  | nil => rfl
  | cons c t =>
    unfold trimLeft
    rw [List.dropWhile_cons, if_neg (by simp [h c rfl])]

theorem trimRight_eq_self {s : List Char}
    (h : ∀ c, s.getLast? = some c → isWhitespaceRust c = false) :
    trimRight s = s := by
  unfold trimRight
  cases hr : s.reverse with
  | nil =>
    rw [List.dropWhile_nil]
    rw [← hr, List.reverse_reverse]
  | cons c t =>
    have hc : s.getLast? = some c := by
      rw [← List.head?_reverse, hr]
      rfl
    rw [List.dropWhile_cons, if_neg (by simp [h c hc]), ← hr,
      List.reverse_reverse]

theorem trim_eq_self {s : List Char}
    (hh : ∀ c, s.head? = some c → isWhitespaceRust c = false)
    (hl : ∀ c, s.getLast? = some c → isWhitespaceRust c = false) :
    trim s = s := by
  unfold trim
  rw [trimLeft_eq_self hh, trimRight_eq_self hl]

theorem splitOnce_no_sep {sep : Char} :
    ∀ {a : List Char}, sep ∉ a → ∀ (t : List Char),
      splitOnce sep (a ++ sep :: t) = some (a, t) := by
  intro a
  induction a with
  | nil =>
    intro _ t
    simp [splitOnce]
  | cons c cs ih =>
    intro hmem t
    have hc : c ≠ sep := fun hc => hmem (by simp [hc])
    rw [List.cons_append, splitOnce, if_neg (by simpa using hc),
      ih (fun hm => hmem (by simp [hm])) t]
    rfl

theorem txKind_roundtrip (k : TxKind) :
    txKind_from_str (txKind_to_str k) = .ok k := by
  cases k <;> rfl

theorem txStatus_roundtrip (st : TxStatus) :
    txStatus_from_str (txStatus_to_str st) = .ok st := by
  cases st <;> rfl

theorem txFieldKey_roundtrip (k : TxFieldKey) :
    txFieldKey_from_str (txFieldKey_to_str k) = .ok k := by
  cases k <;> rfl

theorem partialOf_nil (r : TxRecord) : partialOf r [] = RecordBuilder.new := rfl

theorem getLast?_mem {l : List Char} {a : Char} (h : l.getLast? = some a) :
    a ∈ l := by
  induction l with
  | nil => simp at h
  | cons c t ih =>
    cases t with
    | nil =>
      simp at h
      simp [h]
    | cons d u =>
      rw [List.getLast?_cons_cons] at h
      exact List.mem_cons_of_mem c (ih h)

theorem not_ws_of_mem_decRepr {n : Nat} {c : Char} (h : c ∈ decRepr n) :
    isWhitespaceRust c = false := by
  have hd := decRepr_digits n c h
  exact not_ws_of_ascii (by omega) (by omega)

theorem trim_space_value {v : List Char}
    (hh : ∀ c, v.head? = some c → isWhitespaceRust c = false)
    (hl : ∀ c, v.getLast? = some c → isWhitespaceRust c = false) :
    trim (' ' :: v) = v := by
  unfold trim
  have h1 : trimLeft (' ' :: v) = trimLeft v := by
    unfold trimLeft
    rw [List.dropWhile_cons, if_pos (by decide)]
  rw [h1, trimLeft_eq_self hh, trimRight_eq_self hl]

theorem intRepr_ne_nil (a : Int) : intRepr a ≠ [] := by
  unfold intRepr
  split
  · simp
  · exact decRepr_ne_nil _

theorem intRepr_head_not_ws {a : Int} {c : Char}
    (h : (intRepr a).head? = some c) : isWhitespaceRust c = false := by
  unfold intRepr at h
  split at h
  · simp at h
    rw [← h]
    decide
  · exact not_ws_of_mem_decRepr (head?_mem h)

theorem intRepr_last_not_ws {a : Int} {c : Char}
    (h : (intRepr a).getLast? = some c) : isWhitespaceRust c = false := by
  unfold intRepr at h
  split at h
  · rw [List.getLast?_cons] at h
    cases hgl : (decRepr (-a).toNat).getLast? with
    | none =>
      rw [hgl] at h
      simp at h
      rw [← h]
      decide
    | some d =>
      rw [hgl] at h
      simp at h
      rw [← h]
      exact not_ws_of_mem_decRepr (getLast?_mem hgl)
  · exact not_ws_of_mem_decRepr (getLast?_mem h)

theorem trim_value (r : TxRecord) (k : TxFieldKey) :
    trim (' ' :: valueFor r k) = valueFor r k := by
  cases k with
  | Id =>
    exact trim_space_value (fun c hc => not_ws_of_mem_decRepr (head?_mem hc))
      (fun c hc => not_ws_of_mem_decRepr (getLast?_mem hc))
  | TxKind =>
    show trim (' ' :: txKind_to_str r.kind) = txKind_to_str r.kind
    cases r.kind <;> decide
  | FromUserId =>
    exact trim_space_value (fun c hc => not_ws_of_mem_decRepr (head?_mem hc))
      (fun c hc => not_ws_of_mem_decRepr (getLast?_mem hc))
  | ToUserId =>
    exact trim_space_value (fun c hc => not_ws_of_mem_decRepr (head?_mem hc))
      (fun c hc => not_ws_of_mem_decRepr (getLast?_mem hc))
  | Amount =>
    exact trim_space_value (fun c hc => intRepr_head_not_ws hc)
      (fun c hc => intRepr_last_not_ws hc)
  | Timestamp =>
    exact trim_space_value (fun c hc => not_ws_of_mem_decRepr (head?_mem hc))
      (fun c hc => not_ws_of_mem_decRepr (getLast?_mem hc))
  | Status =>
    show trim (' ' :: txStatus_to_str r.status) = txStatus_to_str r.status
    cases r.status <;> decide
  | Description =>
    apply trim_space_value
    · intro c hc
      simp only [valueFor] at hc
      simp at hc
      rw [← hc]
      decide
    · intro c hc
      simp only [valueFor] at hc
      rw [show ('"' :: (r.description ++ ['"'])) = ('"' :: r.description) ++ ['"']
          by simp, List.getLast?_concat] at hc
      simp at hc
      rw [← hc]
      decide

theorem set_field_value_partial (r : TxRecord) (hr : wfRecord r)
    (ks : List TxFieldKey) (k : TxFieldKey) (hk : k ∉ ks) :
    (partialOf r ks).set_field_value k (valueFor r k) =
      .ok (partialOf r (k :: ks)) := by
  obtain ⟨hid, hfrom, hto, hts, ha1, ha2⟩ := hr
  cases k with
  | Id =>
    have hnp : (partialOf r ks).is_key_already_present .Id = false := by
      simp [partialOf, RecordBuilder.is_key_already_present, hk]
    simp only [RecordBuilder.set_field_value, hnp, Bool.false_eq_true, if_false,
      valueFor, parse_u64_value, parseU64_decRepr hid, Except.map]
    congr 1
    simp [partialOf, List.mem_cons]
  | TxKind =>
    have hnp : (partialOf r ks).is_key_already_present .TxKind = false := by
      simp [partialOf, RecordBuilder.is_key_already_present, hk]
    simp only [RecordBuilder.set_field_value, hnp, Bool.false_eq_true, if_false,
      valueFor, txKind_roundtrip, Except.map]
    congr 1
    simp [partialOf, List.mem_cons]
  | FromUserId =>
    have hnp : (partialOf r ks).is_key_already_present .FromUserId = false := by
      simp [partialOf, RecordBuilder.is_key_already_present, hk]
    simp only [RecordBuilder.set_field_value, hnp, Bool.false_eq_true, if_false,
      valueFor, parse_u64_value, parseU64_decRepr hfrom, Except.map]
    congr 1
    simp [partialOf, List.mem_cons]
  | ToUserId =>
    have hnp : (partialOf r ks).is_key_already_present .ToUserId = false := by
      simp [partialOf, RecordBuilder.is_key_already_present, hk]
    simp only [RecordBuilder.set_field_value, hnp, Bool.false_eq_true, if_false,
      valueFor, parse_u64_value, parseU64_decRepr hto, Except.map]
    congr 1
    simp [partialOf, List.mem_cons]
  | Amount =>
    have hnp : (partialOf r ks).is_key_already_present .Amount = false := by
      simp [partialOf, RecordBuilder.is_key_already_present, hk]
    simp only [RecordBuilder.set_field_value, hnp, Bool.false_eq_true, if_false,
      valueFor, parse_i64_value, parseI64_intRepr ha1 ha2, Except.map]
    congr 1
    simp [partialOf, List.mem_cons]
  | Timestamp =>
    have hnp : (partialOf r ks).is_key_already_present .Timestamp = false := by
      simp [partialOf, RecordBuilder.is_key_already_present, hk]
    simp only [RecordBuilder.set_field_value, hnp, Bool.false_eq_true, if_false,
      valueFor, parse_u64_value, parseU64_decRepr hts, Except.map]
    congr 1
    simp [partialOf, List.mem_cons]
  | Status =>
    have hnp : (partialOf r ks).is_key_already_present .Status = false := by
      simp [partialOf, RecordBuilder.is_key_already_present, hk]
    simp only [RecordBuilder.set_field_value, hnp, Bool.false_eq_true, if_false,
      valueFor, txStatus_roundtrip, Except.map]
    congr 1
    simp [partialOf, List.mem_cons]
  | Description =>
    have hnp : (partialOf r ks).is_key_already_present .Description = false := by
      simp [partialOf, RecordBuilder.is_key_already_present, hk]
    simp only [RecordBuilder.set_field_value, hnp, Bool.false_eq_true, if_false,
      valueFor, unquote_quote, Except.map]
    congr 1
    simp [partialOf, List.mem_cons]

theorem parse_field_lineFor (r : TxRecord) (hr : wfRecord r)
    (ks : List TxFieldKey) (k : TxFieldKey) (hk : k ∉ ks) :
    (partialOf r ks).parse_field_from_line (lineFor r k) =
      .ok (partialOf r (k :: ks)) := by
  have hsplit : splitOnce ':' (lineFor r k) =
      some (txFieldKey_to_str k, ' ' :: valueFor r k) := by
    unfold lineFor
    exact splitOnce_no_sep (by cases k <;> decide) _
  have hkey : trim (txFieldKey_to_str k) = txFieldKey_to_str k := by
    cases k <;> decide
  simp only [RecordBuilder.parse_field_from_line, hsplit, hkey,
    txFieldKey_roundtrip, trim_value]
  exact set_field_value_partial r hr ks k hk

theorem valueFor_ne_nil (r : TxRecord) (k : TxFieldKey) : valueFor r k ≠ [] := by
  cases k with
  | Id => exact decRepr_ne_nil _
  | TxKind => show txKind_to_str r.kind ≠ []; cases r.kind <;> decide
  | FromUserId => exact decRepr_ne_nil _
  | ToUserId => exact decRepr_ne_nil _
  | Amount => exact intRepr_ne_nil _
  | Timestamp => exact decRepr_ne_nil _
  | Status => show txStatus_to_str r.status ≠ []; cases r.status <;> decide
  | Description => simp [valueFor]

theorem valueFor_last_not_ws (r : TxRecord) (k : TxFieldKey) {c : Char}
    (h : (valueFor r k).getLast? = some c) : isWhitespaceRust c = false := by
  cases k with
  | Id => exact not_ws_of_mem_decRepr (getLast?_mem h)
  | TxKind =>
    revert h
    show (txKind_to_str r.kind).getLast? = some c → isWhitespaceRust c = false
    cases hk : r.kind <;> (intro h; simp [txKind_to_str] at h; rw [← h]; decide)
  | FromUserId => exact not_ws_of_mem_decRepr (getLast?_mem h)
  | ToUserId => exact not_ws_of_mem_decRepr (getLast?_mem h)
  | Amount => exact intRepr_last_not_ws h
  | Timestamp => exact not_ws_of_mem_decRepr (getLast?_mem h)
  | Status =>
    revert h
    show (txStatus_to_str r.status).getLast? = some c → isWhitespaceRust c = false
    cases hs : r.status <;> (intro h; simp [txStatus_to_str] at h; rw [← h]; decide)
  | Description =>
    simp only [valueFor] at h
    rw [show ('"' :: (r.description ++ ['"'])) = ('"' :: r.description) ++ ['"']
        by simp, List.getLast?_concat] at h
    simp at h
    rw [← h]
    decide

theorem lineFor_getLast_not_ws (r : TxRecord) (k : TxFieldKey) {c : Char}
    (h : (lineFor r k).getLast? = some c) : isWhitespaceRust c = false := by
  unfold lineFor at h
  rw [List.getLast?_append_of_ne_nil _ (by simp)] at h
  rw [List.getLast?_cons, List.getLast?_cons] at h
  cases hgl : (valueFor r k).getLast? with
  | none =>
    exact absurd (List.getLast?_eq_none_iff.mp hgl) (valueFor_ne_nil r k)
  | some d =>
    rw [hgl] at h
    simp at h
    rw [← h]
    exact valueFor_last_not_ws r k hgl

theorem lineFor_head? (r : TxRecord) (k : TxFieldKey) :
    ∃ c, (lineFor r k).head? = some c ∧ isWhitespaceRust c = false ∧
      c ≠ '#' := by
  cases k with
  | Id => exact ⟨'T', rfl, by decide, by decide⟩
  | TxKind => exact ⟨'T', rfl, by decide, by decide⟩
  | FromUserId => exact ⟨'F', rfl, by decide, by decide⟩
  | ToUserId => exact ⟨'T', rfl, by decide, by decide⟩
  | Amount => exact ⟨'A', rfl, by decide, by decide⟩
  | Timestamp => exact ⟨'T', rfl, by decide, by decide⟩
  | Status => exact ⟨'S', rfl, by decide, by decide⟩
  | Description => exact ⟨'D', rfl, by decide, by decide⟩

theorem trim_lineFor (r : TxRecord) (k : TxFieldKey) :
    trim (lineFor r k) = lineFor r k := by
  apply trim_eq_self
  · intro c hc
    obtain ⟨c0, hc0, hws, -⟩ := lineFor_head? r k
    rw [hc0] at hc
    cases hc
    exact hws
  · intro c hc
    exact lineFor_getLast_not_ws r k hc

theorem lineFor_ne_nil (r : TxRecord) (k : TxFieldKey) : lineFor r k ≠ [] := by
  obtain ⟨c0, hc0, -, -⟩ := lineFor_head? r k
  intro hnil
  rw [hnil] at hc0
  simp at hc0

theorem lineFor_head_ne_comment (r : TxRecord) (k : TxFieldKey) :
    ¬ (trim (lineFor r k)).head? = some '#' := by
  rw [trim_lineFor]
  obtain ⟨c0, hc0, -, hne⟩ := lineFor_head? r k
  rw [hc0]
  simp [hne]

theorem textLoop_fields (r : TxRecord) (hr : wfRecord r) :
    ∀ (todo done : List TxFieldKey), todo.Nodup → (∀ k ∈ todo, k ∉ done) →
    ∀ (lineNum : Nat) (prev : List Char) (acc : List TxRecord)
      (rest : List (List Char)),
      ∃ prev2, textLoop lineNum prev (partialOf r done) acc
          ((todo.map (lineFor r)) ++ rest) =
        textLoop (lineNum + todo.length) prev2
          (partialOf r (todo.reverse ++ done)) acc rest := by
  intro todo
  induction todo with
  | nil =>
    intro done _ _ lineNum prev acc rest
    exact ⟨prev, by simp⟩
  | cons k todo ih =>
    intro done hnodup hdisj lineNum prev acc rest
    have hstep : textLoop lineNum prev (partialOf r done) acc
        ((lineFor r k) :: (todo.map (lineFor r) ++ rest)) =
        textLoop (lineNum + 1) (lineFor r k) (partialOf r (k :: done)) acc
          (todo.map (lineFor r) ++ rest) := by
      rw [textLoop]
      rw [if_neg (lineFor_head_ne_comment r k)]
      rw [if_neg (by rw [trim_lineFor]; exact lineFor_ne_nil r k)]
      rw [trim_lineFor, parse_field_lineFor r hr done k (hdisj k (by simp))]
    obtain ⟨prev2, hrest⟩ := ih (k :: done) (List.Nodup.of_cons hnodup)
      (fun x hx => by
        rcases List.nodup_cons.mp hnodup with ⟨hk, -⟩
        intro hmem
        rcases List.mem_cons.mp hmem with h | h
        · exact hk (h ▸ hx)
        · exact hdisj x (List.mem_cons_of_mem k hx) h)
      (lineNum + 1) (lineFor r k) acc rest
    refine ⟨prev2, ?_⟩
    have harith : lineNum + 1 + todo.length = lineNum + (todo.length + 1) := by
      omega
    have hlist : todo.reverse ++ (k :: done) = (todo.reverse ++ [k]) ++ done := by
      simp
    rw [harith, hlist] at hrest
    simp only [List.map_cons, List.cons_append, List.length_cons,
      List.reverse_cons]
    exact hstep.trans hrest

theorem partialOf_dirty (r : TxRecord) (S : List TxFieldKey) (hne : S ≠ []) :
    (partialOf r S).is_dirty = true := by
  simp [partialOf, hne]

theorem finalize_partial_full (r : TxRecord) (S : List TxFieldKey)
    (hS : ∀ k, k ∈ S) : (partialOf r S).finalize = .ok r := by
  simp [RecordBuilder.finalize, partialOf, hS]

theorem textLoop_record (r : TxRecord) (hr : wfRecord r) (lineNum : Nat)
    (prev : List Char) (acc : List TxRecord) (rest : List (List Char)) :
    textLoop lineNum prev RecordBuilder.new acc
      (allFieldKeys.map (lineFor r) ++ ([] :: rest)) =
      textLoop (lineNum + 9) [] RecordBuilder.new (acc ++ [r]) rest := by
  obtain ⟨prev2, h1⟩ := textLoop_fields r hr allFieldKeys [] (by decide)
    (by simp) lineNum prev acc ([] :: rest)
  rw [← partialOf_nil r, h1]
  have hfull : ∀ k, k ∈ allFieldKeys.reverse ++ ([] : List TxFieldKey) := by
    intro k
    cases k <;> decide
  rw [textLoop]
  rw [if_neg (by decide)]
  rw [if_pos (by decide)]
  rw [partialOf_dirty r _ (by decide)]
  simp only [if_true]
  rw [finalize_partial_full r _ hfull]
  show textLoop (lineNum + allFieldKeys.length + 1) [] RecordBuilder.new
    (acc ++ [r]) rest = _
  congr 1

theorem textLoop_nil_clean (lineNum : Nat) (prev : List Char)
    (acc : List TxRecord) :
    textLoop lineNum prev RecordBuilder.new acc [] = .ok acc := by
  rw [textLoop]
  simp [RecordBuilder.new]

theorem textLoop_records (R : List TxRecord)
    (hv : ∀ r ∈ R, textValidRecord r) :
    ∀ (lineNum : Nat) (prev : List Char) (acc : List TxRecord),
      textLoop lineNum prev RecordBuilder.new acc
        ((R.map (fun r => allFieldKeys.map (lineFor r) ++ [[]])).flatten) =
        .ok (acc ++ R) := by
  induction R with
  | nil =>
    intro lineNum prev acc
    simp only [List.map_nil, List.flatten_nil, List.append_nil]
    exact textLoop_nil_clean lineNum prev acc
  | cons r R ih =>
    intro lineNum prev acc
    have hshape : ((r :: R).map
        (fun r => allFieldKeys.map (lineFor r) ++ [[]])).flatten =
        allFieldKeys.map (lineFor r) ++
          ([] :: (R.map (fun r => allFieldKeys.map (lineFor r) ++ [[]])).flatten) := by
      simp
    rw [hshape, textLoop_record r (hv r (by simp)).1,
      ih (fun x hx => hv x (by simp [hx]))]
    simp

theorem splitOnChar_ne_nil (sep : Char) (s : List Char) :
    splitOnChar sep s ≠ [] := by
  induction s with
  | nil => simp [splitOnChar]
  | cons c t ih =>
    unfold splitOnChar
    split
    · simp
    · split
      · simp
      · simp

theorem splitOnChar_append {sep : Char} {l : List Char} (hnl : sep ∉ l)
    (rest : List Char) :
    splitOnChar sep (l ++ sep :: rest) = l :: splitOnChar sep rest := by
  induction l with
  | nil => simp [splitOnChar]
  | cons c t ih =>
    have hc : c ≠ sep := fun h => hnl (by simp [h])
    rw [List.cons_append, splitOnChar, if_neg (by simpa using hc),
      ih (fun hm => hnl (by simp [hm]))]

theorem splitOnChar_no_sep {sep : Char} {l : List Char} (hnl : sep ∉ l) :
    splitOnChar sep l = [l] := by
  induction l with
  | nil => rfl
  | cons c t ih =>
    have hc : c ≠ sep := fun h => hnl (by simp [h])
    rw [splitOnChar, if_neg (by simpa using hc),
      ih (fun hm => hnl (by simp [hm]))]

theorem linesOf_cons_line {l : List Char} (hnl : '\n' ∉ l)
    (hcr : l.getLast? ≠ some '\r') (rest : List Char) :
    linesOf (l ++ '\n' :: rest) = l :: linesOf rest := by
  unfold linesOf
  rw [splitOnChar_append hnl rest]
  have hne := splitOnChar_ne_nil '\n' rest
  have hlast : (l :: splitOnChar '\n' rest).getLast? =
      (splitOnChar '\n' rest).getLast? := by
    cases hsc : splitOnChar '\n' rest with
    | nil => exact absurd hsc hne
    | cons a t => rw [List.getLast?_cons_cons]
  rw [hlast]
  have hstrip : stripTrailingCR l = l := by
    unfold stripTrailingCR
    rw [if_neg hcr]
  split
  · rw [List.dropLast_cons_of_ne_nil hne, List.map_cons, hstrip]
  · rw [List.map_cons, hstrip]

theorem linesOf_flatten_lines (ls : List (List Char))
    (h : ∀ l ∈ ls, '\n' ∉ l ∧ l.getLast? ≠ some '\r') (rest : List Char) :
    linesOf ((ls.map (· ++ ['\n'])).flatten ++ rest) = ls ++ linesOf rest := by
  induction ls with
  | nil => simp
  | cons l ls ih =>
    have hshape : (((l :: ls).map (· ++ ['\n'])).flatten ++ rest) =
        l ++ ('\n' :: ((ls.map (· ++ ['\n'])).flatten ++ rest)) := by
      simp
    rw [hshape, linesOf_cons_line (h l (by simp)).1 (h l (by simp)).2,
      ih (fun x hx => h x (by simp [hx]))]
    rfl

theorem not_nl_of_mem_decRepr {n : Nat} {c : Char} (h : c ∈ decRepr n) :
    c ≠ '\n' := by
  have := decRepr_digits n c h
  intro hc
  rw [hc] at this
  simp at this

theorem lineFor_no_nl (r : TxRecord) (hd : '\n' ∉ r.description)
    (k : TxFieldKey) : '\n' ∉ lineFor r k := by
  unfold lineFor
  intro hmem
  rw [List.mem_append] at hmem
  rcases hmem with hmem | hmem
  · revert hmem
    cases k <;> decide
  · rcases List.mem_cons.mp hmem with h1 | hmem
    · exact absurd h1 (by decide)
    · rcases List.mem_cons.mp hmem with h1 | hmem
      · exact absurd h1 (by decide)
      · cases k with
        | Id => exact not_nl_of_mem_decRepr hmem rfl
        | TxKind =>
          revert hmem
          show '\n' ∈ txKind_to_str r.kind → False
          cases r.kind <;> decide
        | FromUserId => exact not_nl_of_mem_decRepr hmem rfl
        | ToUserId => exact not_nl_of_mem_decRepr hmem rfl
        | Amount =>
          revert hmem
          show '\n' ∈ intRepr r.amount → False
          unfold intRepr
          split
          · intro hmem
            rcases List.mem_cons.mp hmem with h1 | hmem
            · exact absurd h1 (by decide)
            · exact not_nl_of_mem_decRepr hmem rfl
          · intro hmem
            exact not_nl_of_mem_decRepr hmem rfl
        | Timestamp => exact not_nl_of_mem_decRepr hmem rfl
        | Status =>
          revert hmem
          show '\n' ∈ txStatus_to_str r.status → False
          cases r.status <;> decide
        | Description =>
          revert hmem
          show '\n' ∈ ('"' :: (r.description ++ ['"'])) → False
          intro hmem
          rcases List.mem_cons.mp hmem with h1 | hmem
          · exact absurd h1 (by decide)
          · rcases List.mem_append.mp hmem with h1 | h1
            · exact hd h1
            · simp at h1

theorem lineFor_no_cr (r : TxRecord) (k : TxFieldKey) :
    (lineFor r k).getLast? ≠ some '\r' := by
  intro hcr
  have := lineFor_getLast_not_ws r k hcr
  simp [isWhitespaceRust] at this

theorem textWrite_flatten (R : List TxRecord) :
    textWrite R =
      (((R.map (fun r => allFieldKeys.map (lineFor r) ++ [[]])).flatten).map
        (· ++ ['\n'])).flatten := by
  induction R with
  | nil => rfl
  | cons r R ih =>
    show textWriteOne r ++ ['\n'] ++ textWrite R = _
    rw [ih]
    simp [textWriteOne]
    rfl

theorem linesOf_textWrite (R : List TxRecord)
    (hv : ∀ r ∈ R, textValidRecord r) :
    linesOf (textWrite R) =
      (R.map (fun r => allFieldKeys.map (lineFor r) ++ [[]])).flatten := by
  rw [textWrite_flatten]
  have h := linesOf_flatten_lines
    ((R.map (fun r => allFieldKeys.map (lineFor r) ++ [[]])).flatten)
    (by
      intro l hl
      rw [List.mem_flatten] at hl
      obtain ⟨block, hblock, hlin⟩ := hl
      rw [List.mem_map] at hblock
      obtain ⟨r, hr, rfl⟩ := hblock
      rcases List.mem_append.mp hlin with hlin | hlin
      · rw [List.mem_map] at hlin
        obtain ⟨k, -, rfl⟩ := hlin
        exact ⟨lineFor_no_nl r (hv r hr).2 k, lineFor_no_cr r k⟩
      · simp at hlin
        subst hlin
        exact ⟨by simp, by simp⟩) []
  rw [List.append_nil] at h
  rw [h]
  simp [linesOf, splitOnChar]

/-- Text-format round trip. -/
theorem textParse_roundtrip (R : List TxRecord)
    (hv : ∀ r ∈ R, textValidRecord r) :
    textParse (textWrite R) = .ok R := by
  unfold textParse
  rw [linesOf_textWrite R hv, textLoop_records R hv 0 [] []]
  simp

/-- C5 (confirmed): closing a record with at least one field set but not
all eight yields `MissingField k` where `k` is the first absent field in
the fixed order id, kind, from, to, amount, timestamp, status,
description — for every combination of missing fields. -/
theorem claim_C5 (b : RecordBuilder) (k : TxFieldKey)
    (hone : b.id.isSome ∨ b.kind.isSome ∨ b.fromId.isSome ∨ b.toId.isSome ∨
      b.amount.isSome ∨ b.ts.isSome ∨ b.status.isSome ∨ b.description.isSome)
    (hmiss : firstMissingKey b = some k) :
    b.finalize = .error (.MissingField k) := by
  obtain ⟨dirty, i, k1, f, t, a, ts, st, d⟩ := b
  cases i <;> cases k1 <;> cases f <;> cases t <;> cases a <;> cases ts <;>
    cases st <;> cases d <;>
    simp_all [RecordBuilder.finalize, firstMissingKey]

/-- C6 (confirmed): for every valid record, any permutation of its eight
`KEY: value` lines within one block parses to exactly that record. -/
theorem claim_C6 (r : TxRecord) (hr : textValidRecord r)
    (ks : List TxFieldKey) (hperm : ks.Perm allFieldKeys) :
    textParse ((ks.map (fun k => lineFor r k ++ ['\n'])).flatten) =
      .ok [r] := by
  unfold textParse
  have hlines : linesOf ((ks.map (fun k => lineFor r k ++ ['\n'])).flatten) =
      ks.map (lineFor r) := by
    have h := linesOf_flatten_lines (ks.map (lineFor r))
      (by
        intro l hl
        rw [List.mem_map] at hl
        obtain ⟨k, -, rfl⟩ := hl
        exact ⟨lineFor_no_nl r hr.2 k, lineFor_no_cr r k⟩) []
    rw [List.append_nil] at h
    have hmapmap : ((ks.map (lineFor r)).map (· ++ ['\n'])).flatten =
        (ks.map (fun k => lineFor r k ++ ['\n'])).flatten := by
      rw [List.map_map]
      rfl
    rw [hmapmap] at h
    rw [h]
    simp [linesOf, splitOnChar]
  rw [hlines]
  have hnodup : ks.Nodup := (hperm.nodup_iff).mpr (by decide)
  obtain ⟨prev2, h1⟩ := textLoop_fields r hr.1 ks [] hnodup (by simp) 0 [] []
    []
  rw [List.append_nil] at h1
  rw [← partialOf_nil r, h1]
  have hne : ks.reverse ++ ([] : List TxFieldKey) ≠ [] := by
    rw [List.append_nil]
    simp only [ne_eq, List.reverse_eq_nil_iff]
    intro hc
    subst hc
    have hlen := hperm.length_eq
    simp [allFieldKeys] at hlen
  have hfull : ∀ k, k ∈ ks.reverse ++ ([] : List TxFieldKey) := by
    intro k
    have hk : k ∈ allFieldKeys := by cases k <;> decide
    simp [hperm.mem_iff.mpr hk]
  rw [textLoop, partialOf_dirty r _ hne]
  simp only [if_true]
  rw [finalize_partial_full r _ hfull]
  simp

theorem trimRight_head {c : Char} (t : List Char)
    (hc : isWhitespaceRust c = false) :
    (trimRight (c :: t)).head? = some c := by
  unfold trimRight
  rw [List.reverse_cons, List.dropWhile_append]
  split
  · rw [show List.dropWhile isWhitespaceRust [c] = [c] by
      rw [List.dropWhile_cons]
      simp [hc]]
    rfl
  · rw [List.reverse_append]
    rfl

theorem trim_comment_head {raw : List Char}
    (h : (raw.dropWhile isWhitespaceRust).head? = some '#') :
    (trim raw).head? = some '#' := by
  cases hdw : raw.dropWhile isWhitespaceRust with
  | nil => rw [hdw] at h; simp at h
  | cons c t =>
    rw [hdw] at h
    simp at h
    subst h
    show (trimRight (trimLeft raw)).head? = some '#'
    unfold trimLeft
    rw [hdw]
    exact trimRight_head t (by decide)

theorem trim_all_ws {raw : List Char} (h : raw.all isWhitespaceRust) :
    trim raw = [] := by
  unfold trim trimLeft
  rw [List.dropWhile_eq_nil_iff.mpr (by
    intro x hx
    exact List.all_eq_true.mp h x hx)]
  rfl

/-- C9 (confirmed): a line whose first non-whitespace character is `#`
is skipped entirely (builder, accumulated records, and remaining work
unchanged); a line of only whitespace takes the blank-line branch: with
a clean builder it only resets the builder, and with a dirty builder
holding a complete record it closes that record exactly like an empty
line does.  Neither contributes any field state. -/
theorem claim_C9 :
    (∀ (lineNum : Nat) (prev : List Char) (b : RecordBuilder)
        (acc : List TxRecord) (raw : List Char) (rest : List (List Char)),
      (raw.dropWhile isWhitespaceRust).head? = some '#' →
        textLoop lineNum prev b acc (raw :: rest) =
          textLoop (lineNum + 1) raw b acc rest) ∧
    (∀ (lineNum : Nat) (prev : List Char) (b : RecordBuilder)
        (acc : List TxRecord) (raw : List Char) (rest : List (List Char)),
      raw.all isWhitespaceRust →
        (b.is_dirty = false →
          textLoop lineNum prev b acc (raw :: rest) =
            textLoop (lineNum + 1) raw RecordBuilder.new acc rest) ∧
        (∀ r, b.is_dirty = true → b.finalize = .ok r →
          textLoop lineNum prev b acc (raw :: rest) =
            textLoop (lineNum + 1) raw RecordBuilder.new (acc ++ [r]) rest)) := by
  constructor
  · intro lineNum prev b acc raw rest h
    rw [textLoop, if_pos (trim_comment_head h)]
  · intro lineNum prev b acc raw rest hws
    have htrim := trim_all_ws hws
    constructor
    · intro hclean
      rw [textLoop, if_neg (by rw [htrim]; simp), if_pos htrim, hclean]
      simp
    · intro r hdirty hfin
      rw [textLoop, if_neg (by rw [htrim]; simp), if_pos htrim, hdirty]
      simp only [if_true]
      rw [hfin]

theorem valueFor_head_not_ws (r : TxRecord) (k : TxFieldKey) {c : Char}
    (h : (valueFor r k).head? = some c) : isWhitespaceRust c = false := by
  cases k with
  | Id => exact not_ws_of_mem_decRepr (head?_mem h)
  | TxKind =>
    revert h
    show (txKind_to_str r.kind).head? = some c → isWhitespaceRust c = false
    cases r.kind <;> (intro h; simp [txKind_to_str] at h; rw [← h]; decide)
  | FromUserId => exact not_ws_of_mem_decRepr (head?_mem h)
  | ToUserId => exact not_ws_of_mem_decRepr (head?_mem h)
  | Amount => exact intRepr_head_not_ws h
  | Timestamp => exact not_ws_of_mem_decRepr (head?_mem h)
  | Status =>
    revert h
    show (txStatus_to_str r.status).head? = some c → isWhitespaceRust c = false
    cases r.status <;> (intro h; simp [txStatus_to_str] at h; rw [← h]; decide)
  | Description =>
    simp only [valueFor] at h
    simp at h
    rw [← h]
    decide

theorem mem_joinSep {sep : Char} {c : Char} :
    ∀ {ls : List (List Char)}, c ∈ joinSep sep ls →
      c = sep ∨ ∃ l ∈ ls, c ∈ l := by
  intro ls
  induction ls with
  | nil => intro h; simp [joinSep] at h
  | cons l ls ih =>
    intro h
    cases ls with
    | nil =>
      simp only [joinSep] at h
      exact Or.inr ⟨l, by simp, h⟩
    | cons l2 ls2 =>
      rw [joinSep] at h
      rcases List.mem_append.mp h with h1 | h1
      · exact Or.inr ⟨l, by simp, h1⟩
      · rcases List.mem_cons.mp h1 with h2 | h2
        · exact Or.inl h2
        · rcases ih h2 with h3 | ⟨l3, hl3, hc3⟩
          · exact Or.inl h3
          · exact Or.inr ⟨l3, by simp [hl3], hc3⟩

theorem head?_joinSep {sep : Char} (v : List Char) (ls : List (List Char))
    (hv : v ≠ []) : (joinSep sep (v :: ls)).head? = v.head? := by
  cases ls with
  | nil => rfl
  | cons l2 ls2 =>
    rw [joinSep, List.head?_append_of_ne_nil _ hv]

theorem getLast?_cons_ne_nil {c : Char} {x : List Char} (hx : x ≠ []) :
    (c :: x).getLast? = x.getLast? := by
  show (([c] ++ x)).getLast? = x.getLast?
  rw [List.getLast?_append_of_ne_nil _ hx]

theorem joinSep_ne_nil {sep : Char} {v : List Char} (hv : v ≠ [])
    (ls : List (List Char)) : joinSep sep (v :: ls) ≠ [] := by
  cases ls with
  | nil => exact hv
  | cons l2 ls2 =>
    rw [joinSep]
    intro h
    rcases List.append_eq_nil.mp h with ⟨-, h2⟩
    simp at h2

theorem joinSep_last_ne_nil {sep : Char} {v : List Char} (hv : v ≠ []) :
    ∀ (ls : List (List Char)), joinSep sep (ls ++ [v]) ≠ [] := by
  intro ls
  cases ls with
  | nil => simpa [joinSep]
  | cons l ls2 =>
    obtain ⟨a, as, hsh⟩ : ∃ a as, ls2 ++ [v] = a :: as := by
      cases hc : ls2 ++ [v] with
      | nil => simp at hc
      | cons a as => exact ⟨a, as, rfl⟩
    rw [List.cons_append, hsh, joinSep]
    intro h
    rcases List.append_eq_nil.mp h with ⟨-, h2⟩
    simp at h2

theorem getLast?_joinSep {sep : Char} (v : List Char) (hv : v ≠ []) :
    ∀ (ls : List (List Char)),
      (joinSep sep (ls ++ [v])).getLast? = v.getLast? := by
  intro ls
  induction ls with
  | nil => rfl
  | cons l ls ih =>
    obtain ⟨a, as, hsh⟩ : ∃ a as, ls ++ [v] = a :: as := by
      cases hc : ls ++ [v] with
      | nil => simp at hc
      | cons a as => exact ⟨a, as, rfl⟩
    rw [List.cons_append, hsh, joinSep,
      List.getLast?_append_of_ne_nil _ (by simp),
      getLast?_cons_ne_nil (by rw [← hsh]; exact joinSep_last_ne_nil hv ls),
      ← hsh, ih]

theorem trim_valueFor (r : TxRecord) (k : TxFieldKey) :
    trim (valueFor r k) = valueFor r k :=
  trim_eq_self (fun _ hc => valueFor_head_not_ws r k hc)
    (fun _ hc => valueFor_last_not_ws r k hc)

theorem valueFor_no_nl (r : TxRecord) (hd : '\n' ∉ r.description)
    (k : TxFieldKey) : '\n' ∉ valueFor r k := by
  intro hmem
  cases k with
  | Id => exact absurd (decRepr_digits _ _ hmem) (by decide)
  | TxKind =>
    revert hmem
    show '\n' ∈ txKind_to_str r.kind → False
    cases r.kind <;> decide
  | FromUserId => exact absurd (decRepr_digits _ _ hmem) (by decide)
  | ToUserId => exact absurd (decRepr_digits _ _ hmem) (by decide)
  | Amount =>
    revert hmem
    show '\n' ∈ intRepr r.amount → False
    unfold intRepr
    split
    · intro hmem
      rcases List.mem_cons.mp hmem with h1 | hmem
      · exact absurd h1 (by decide)
      · exact absurd (decRepr_digits _ _ hmem) (by decide)
    · intro hmem
      exact absurd (decRepr_digits _ _ hmem) (by decide)
  | Timestamp => exact absurd (decRepr_digits _ _ hmem) (by decide)
  | Status =>
    revert hmem
    show '\n' ∈ txStatus_to_str r.status → False
    cases r.status <;> decide
  | Description =>
    revert hmem
    show '\n' ∈ ('"' :: (r.description ++ ['"'])) → False
    intro hmem
    rcases List.mem_cons.mp hmem with h1 | hmem
    · exact absurd h1 (by decide)
    · rcases List.mem_append.mp hmem with h1 | h1
      · exact hd h1
      · simp at h1

theorem valueFor_no_comma (r : TxRecord) (hd : ',' ∉ r.description)
    (k : TxFieldKey) : ',' ∉ valueFor r k := by
  intro hmem
  cases k with
  | Id => exact absurd (decRepr_digits _ _ hmem) (by decide)
  | TxKind =>
    revert hmem
    show ',' ∈ txKind_to_str r.kind → False
    cases r.kind <;> decide
  | FromUserId => exact absurd (decRepr_digits _ _ hmem) (by decide)
  | ToUserId => exact absurd (decRepr_digits _ _ hmem) (by decide)
  | Amount =>
    revert hmem
    show ',' ∈ intRepr r.amount → False
    unfold intRepr
    split
    · intro hmem
      rcases List.mem_cons.mp hmem with h1 | hmem
      · exact absurd h1 (by decide)
      · exact absurd (decRepr_digits _ _ hmem) (by decide)
    · intro hmem
      exact absurd (decRepr_digits _ _ hmem) (by decide)
  | Timestamp => exact absurd (decRepr_digits _ _ hmem) (by decide)
  | Status =>
    revert hmem
    show ',' ∈ txStatus_to_str r.status → False
    cases r.status <;> decide
  | Description =>
    revert hmem
    show ',' ∈ ('"' :: (r.description ++ ['"'])) → False
    intro hmem
    rcases List.mem_cons.mp hmem with h1 | hmem
    · exact absurd h1 (by decide)
    · rcases List.mem_append.mp hmem with h1 | h1
      · exact hd h1
      · simp at h1

theorem trim_csvRow (r : TxRecord) : trim (csvRow r) = csvRow r := by
  apply trim_eq_self
  · intro c hc
    have hshape : csvRow r = joinSep ',' (valueFor r .Id ::
        [valueFor r .TxKind, valueFor r .FromUserId, valueFor r .ToUserId,
         valueFor r .Amount, valueFor r .Timestamp, valueFor r .Status,
         valueFor r .Description]) := rfl
    rw [hshape, head?_joinSep _ _ (valueFor_ne_nil r .Id)] at hc
    exact valueFor_head_not_ws r .Id hc
  · intro c hc
    have hshape : csvRow r = joinSep ','
        ([valueFor r .Id, valueFor r .TxKind, valueFor r .FromUserId,
          valueFor r .ToUserId, valueFor r .Amount, valueFor r .Timestamp,
          valueFor r .Status] ++ [valueFor r .Description]) := rfl
    rw [hshape, getLast?_joinSep _ (valueFor_ne_nil r .Description)] at hc
    exact valueFor_last_not_ws r .Description hc

theorem csvRow_no_nl (r : TxRecord) (hd : '\n' ∉ r.description) :
    '\n' ∉ csvRow r := by
  intro hmem
  rcases mem_joinSep hmem with h | ⟨l, hl, hc⟩
  · exact absurd h (by decide)
  · rw [List.mem_map] at hl
    obtain ⟨k, -, rfl⟩ := hl
    exact valueFor_no_nl r hd k hc

theorem csvRow_no_cr (r : TxRecord) : (csvRow r).getLast? ≠ some '\r' := by
  intro hcr
  have hshape : csvRow r = joinSep ','
      ([valueFor r .Id, valueFor r .TxKind, valueFor r .FromUserId,
        valueFor r .ToUserId, valueFor r .Amount, valueFor r .Timestamp,
        valueFor r .Status] ++ [valueFor r .Description]) := rfl
  rw [hshape, getLast?_joinSep _ (valueFor_ne_nil r .Description)] at hcr
  have := valueFor_last_not_ws r .Description hcr
  simp [isWhitespaceRust] at this

theorem splitOnChar_joinSep {sep : Char} :
    ∀ (ls : List (List Char)), ls ≠ [] → (∀ l ∈ ls, sep ∉ l) →
      splitOnChar sep (joinSep sep ls) = ls := by
  intro ls
  induction ls with
  | nil => intro h; exact absurd rfl h
  | cons l ls ih =>
    intro _ hsep
    cases ls with
    | nil =>
      show splitOnChar sep l = [l]
      exact splitOnChar_no_sep (hsep l (by simp))
    | cons l2 ls2 =>
      rw [joinSep, splitOnChar_append (hsep l (by simp)),
        ih (by simp) (fun x hx => hsep x (by simp [hx]))]

theorem parse_csv_row (r : TxRecord) (hv : csvValidRecord r) :
    parse_csv_line (trim (csvRow r)) = .ok r := by
  obtain ⟨⟨hid, hfrom, hto, hts, ha1, ha2⟩, hnl, hcomma⟩ := hv
  rw [trim_csvRow]
  unfold parse_csv_line csvRow
  rw [splitOnChar_joinSep (allFieldKeys.map (valueFor r)) (by simp [allFieldKeys])
    (by
      intro l hl
      rw [List.mem_map] at hl
      obtain ⟨k, -, rfl⟩ := hl
      exact valueFor_no_comma r hcomma k)]
  show (match [trim (valueFor r .Id), trim (valueFor r .TxKind),
      trim (valueFor r .FromUserId), trim (valueFor r .ToUserId),
      trim (valueFor r .Amount), trim (valueFor r .Timestamp),
      trim (valueFor r .Status), trim (valueFor r .Description)] with
    | [v0, v1, v2, v3, v4, v5, v6, v7] => _
    | _ => Except.error ParserError.IncompleteRecord) = Except.ok r
  simp only [trim_valueFor]
  simp only [valueFor, parse_u64_value, parse_i64_value,
    parseU64_decRepr hid, parseU64_decRepr hfrom, parseU64_decRepr hto,
    parseU64_decRepr hts, parseI64_intRepr ha1 ha2, txKind_roundtrip,
    txStatus_roundtrip, unquote_quote]

theorem csvLoopRows_write (R : List TxRecord)
    (hv : ∀ r ∈ R, csvValidRecord r) :
    ∀ (lineNum : Nat) (acc : List TxRecord),
      csvLoopRows lineNum (R.map csvRow) acc = .ok (acc ++ R) := by
  induction R with
  | nil => intro lineNum acc; simp [csvLoopRows]
  | cons r R ih =>
    intro lineNum acc
    rw [List.map_cons, csvLoopRows, parse_csv_row r (hv r (by simp))]
    show csvLoopRows (lineNum + 1) (List.map csvRow R) (acc ++ [r]) =
      .ok (acc ++ r :: R)
    rw [ih (fun x hx => hv x (by simp [hx]))]
    simp

/-- CSV-format round trip. -/
theorem csvParse_roundtrip (R : List TxRecord)
    (hv : ∀ r ∈ R, csvValidRecord r) :
    csvParse (csvWrite R) = .ok R := by
  unfold csvParse csvWrite
  have hlines : linesOf (HEADER_SIGNATURE ++ ['\n'] ++
      (R.map (fun r => csvRow r ++ ['\n'])).flatten) =
      HEADER_SIGNATURE :: R.map csvRow := by
    rw [List.append_assoc, show (['\n'] : List Char) ++
      (R.map (fun r => csvRow r ++ ['\n'])).flatten =
      '\n' :: (R.map (fun r => csvRow r ++ ['\n'])).flatten from rfl]
    rw [linesOf_cons_line (by decide) (by decide)]
    congr 1
    have h := linesOf_flatten_lines (R.map csvRow)
      (by
        intro l hl
        rw [List.mem_map] at hl
        obtain ⟨r, hr, rfl⟩ := hl
        exact ⟨csvRow_no_nl r (hv r hr).2.1, csvRow_no_cr r⟩) []
    rw [List.append_nil] at h
    have hmapmap : ((R.map csvRow).map (· ++ ['\n'])).flatten =
        (R.map (fun r => csvRow r ++ ['\n'])).flatten := by
      rw [List.map_map]
      rfl
    rw [hmapmap] at h
    rw [h]
    simp [linesOf, splitOnChar]
  rw [hlines]
  rw [csvParseLines, if_neg (by simp)]
  rw [csvLoopRows_write R hv 1 []]
  simp

/-- C7 (confirmed): the first line is accepted exactly when it equals
the fixed header string byte for byte; any other first line is rejected
with `InvalidFileHeader` (for every remaining line list, i.e. before any
data row is parsed); an equal first line proceeds to the data rows. -/
theorem claim_C7 (h : List Char) (rest : List (List Char)) :
    (h ≠ HEADER_SIGNATURE →
      csvParseLines (h :: rest) =
        .error (.ParsingError (.LineNumAndLine 0 h) .InvalidFileHeader)) ∧
    (h = HEADER_SIGNATURE →
      csvParseLines (h :: rest) = csvLoopRows 1 rest []) := by
  constructor
  · intro hne
    rw [csvParseLines, if_pos (by simpa using hne)]
  · intro heq
    rw [csvParseLines, if_neg (by simp [heq])]

/-- C8 (confirmed): a completely empty CSV input stream parses to the
empty record sequence; the header check runs only when a first line
exists. -/
theorem claim_C8 : csvParse [] = .ok [] := rfl

/-- C1: writing any valid record sequence with a format and parsing the
bytes back with the same format returns exactly the same records, in
order, for each of the binary, text and CSV codecs.  Validity is the
per-format side condition a record constructed in the Rust program
satisfies: the numeric field ranges of `u64`/`i64`, a description small
enough for the `u32` length fields (binary), and a description without
a line break (text, CSV) or comma (CSV). -/
theorem claim_C1 (R : List TxRecord) :
    ((∀ r ∈ R, binValidRecord r) → binParse (binWrite R) = .ok R) ∧
    ((∀ r ∈ R, textValidRecord r) → textParse (textWrite R) = .ok R) ∧
    ((∀ r ∈ R, csvValidRecord r) → csvParse (csvWrite R) = .ok R) :=
  ⟨binParse_roundtrip R, textParse_roundtrip R, csvParse_roundtrip R⟩

/-- C1 witness: the spec's sample record round-trips through all three
formats. -/
theorem claim_C1_witness :
    binParse (binWrite [sampleTx]) = .ok [sampleTx] ∧
    textParse (textWrite [sampleTx]) = .ok [sampleTx] ∧
    csvParse (csvWrite [sampleTx]) = .ok [sampleTx] :=
  ⟨(claim_C1 [sampleTx]).1 (by decide),
   (claim_C1 [sampleTx]).2.1 (by decide),
   (claim_C1 [sampleTx]).2.2 (by decide)⟩

/-- C2 witness: after one written record, a 2-byte tail stops cleanly
and a truncation right after the full magic is a `ReadError`. -/
theorem claim_C2_witness :
    binParse (binWrite [sampleTx] ++ [0x59, 0x50]) = .ok [sampleTx] ∧
    binParse (binWrite [sampleTx] ++ (RECORD_MAGIC ++ [0, 0])) =
      .error .ReadError :=
  ⟨(claim_C2 [sampleTx] (by decide)).1 [0x59, 0x50] (by decide),
   (claim_C2 [sampleTx] (by decide)).2 [0, 0] (by decide)⟩

/-- C3 witness: declared length 45 is rejected with `IncompleteRecord`
at position 8; declared length 46 with a full 46-byte body is not. -/
theorem claim_C3_witness :
    binParse (RECORD_MAGIC ++ (toBytesBE 4 45 ++ [])) =
      .error (.ParsingError (.Position 8) .IncompleteRecord) ∧
    binParse (RECORD_MAGIC ++ (toBytesBE 4 46 ++ List.replicate 46 0)) ≠
      .error (.ParsingError (.Position 8) .IncompleteRecord) :=
  ⟨(claim_C3 45 (by norm_num)).1 (by norm_num) [],
   (claim_C3 46 (by norm_num)).2 (by norm_num) (List.replicate 46 0)
     (by simp) (.Position 8)⟩

/-- C4 witness: for the sample record the body-length field is the
big-endian encoding of `46 + 7`. -/
theorem claim_C4_witness :
    ((binWrite [sampleTx]).drop 4).take 4 =
      toBytesBE 4 (46 + (utf8Encode sampleTx.description).length) :=
  claim_C4 sampleTx (by decide)

/-- C5 witness: a dirty builder with only `id` set finalizes to
`MissingField TxKind`, the first absent key after `id`. -/
theorem claim_C5_witness :
    RecordBuilder.finalize
      ⟨true, some 1, none, none, none, none, none, none, none⟩ =
      .error (.MissingField .TxKind) :=
  claim_C5 ⟨true, some 1, none, none, none, none, none, none, none⟩
    .TxKind (by decide) (by decide)

/-- C6 witness: the sample record's eight lines in fully reversed order
(description first, id last) parse to the sample record. -/
theorem claim_C6_witness :
    textParse ((allFieldKeys.reverse.map
      (fun k => lineFor sampleTx k ++ ['\n'])).flatten) = .ok [sampleTx] :=
  claim_C6 sampleTx (by decide) allFieldKeys.reverse
    (List.reverse_perm allFieldKeys)

/-- C7 witness: the single line `x` is rejected as `InvalidFileHeader`;
the exact header line proceeds to the (empty) row loop. -/
theorem claim_C7_witness :
    csvParseLines (['x'] :: []) =
      .error (.ParsingError (.LineNumAndLine 0 ['x']) .InvalidFileHeader) ∧
    csvParseLines (HEADER_SIGNATURE :: []) = csvLoopRows 1 [] [] :=
  ⟨(claim_C7 ['x'] []).1 (by decide), (claim_C7 HEADER_SIGNATURE []).2 rfl⟩

/-- C9 witness: a comment line with leading whitespace is skipped with
builder and records unchanged. -/
theorem claim_C9_witness :
    textLoop 1 [] RecordBuilder.new [] (" # note".toList :: []) =
      textLoop 2 " # note".toList RecordBuilder.new [] [] :=
  (claim_C9.1 1 [] RecordBuilder.new [] " # note".toList []) (by decide)

/-- C10 witness: a frame declaring two surplus body bytes after the
sample record's description parses to exactly that record. -/
theorem claim_C10_witness :
    binParse (RECORD_MAGIC ++
      (toBytesBE 4 (46 + (utf8Encode sampleTx.description).length +
          ([7, 7] : List Nat).length) ++
        ((binEncodeBody sampleTx ++ [7, 7]) ++ binWrite []))) =
      .ok [sampleTx] :=
  claim_C10 sampleTx [7, 7] [] (by decide) (by decide) (by decide)

end Rustyapa
